import Mathlib

/-!
Verification development for the turbo-tail (jsonlv) log manager.

The Go sources are shallowly embedded:
and strings are lists of characters (`GoStr`), Go maps are association
lists with unique keys maintained by the update operations, nested JSON
objects (Go `map[string]any` restricted to the values produced by
`json.Unmarshal`: strings, numbers, booleans, null and nested objects)
are the inductive `JObj`, and `float64` numbers are represented by the
decimal `m * 10 ^ (-e)` that `strconv.FormatFloat(v, 'f', -1, 64)`
prints, which is its shortest decimal representation.  Character case mapping
models `strings.ToLower` on its ASCII range, which is the range the
claims exercise.
-/

namespace Jsonlv

/-- GoStr is the embedding of a Go string as its list of characters. -/
abbrev GoStr := List Char

/-- goLen is Go `len(s)`: the byte length of the UTF-8 encoding. -/
def goLen (s : GoStr) : Nat := (s.map Char.utf8Size).sum

/-- goToLower is Go `strings.ToLower`, modelled on the ASCII case range. -/
def goToLower (s : GoStr) : GoStr := s.map Char.toLower

/-- leadsWith sub s is true when sub is a prefix of s. -/
def leadsWith : GoStr → GoStr → Bool
  | [], _ => true
  | _ :: _, [] => false
  | a :: as, b :: bs => a == b && leadsWith as bs

/-- goContains s sub is Go `strings.Contains(s, sub)`. -/
def goContains : GoStr → GoStr → Bool
  | s, sub =>
    if leadsWith sub s then true
    else match s with
      | [] => false
      | _ :: t => goContains t sub

/-- lookupA m k is a lookup in an association list (first match). -/
def lookupA {κ β : Type} [DecidableEq κ] : List (κ × β) → κ → Option β
  | [], _ => none
  | (k', v) :: rest, k => if k' = k then some v else lookupA rest k

/-- upsert models Go map assignment `m[k] = v`: replace or append. -/
def upsert {κ β : Type} [DecidableEq κ] (k : κ) (v : β) : List (κ × β) → List (κ × β)
  | [] => [(k, v)]
  | (k', v') :: rest => if k' = k then (k, v) :: rest else (k', v') :: upsert k v rest

/-- eraseKey models Go `delete(m, k)`. -/
def eraseKey {κ β : Type} [DecidableEq κ] (k : κ) : List (κ × β) → List (κ × β)
  | [] => []
  | (k', v') :: rest => if k' = k then eraseKey k rest else (k', v') :: eraseKey k rest

/-- keysOf lists the keys of an association list. -/
def keysOf {κ β : Type} (m : List (κ × β)) : List κ := m.map Prod.fst

/-- JScalar is a scalar JSON value as decoded by `json.Unmarshal` into
`any`: a string, a number (`float64`, represented by the decimal
`m * 10 ^ (-e)` printed by its shortest-digit formatting), a boolean, or null. -/
inductive JScalar where
  | str (s : GoStr)
  | num (m : Int) (e : Nat)
  | jbool (b : Bool)
  | jnull
deriving DecidableEq, Repr

/-- JObj is a Go `map[string]any` holding scalars and nested objects,
embedded as a keyed sequence (one fixed iteration order). -/
inductive JObj where
  | nil
  | cons (k : GoStr) (v : JScalar) (rest : JObj)
  | consObj (k : GoStr) (v : JObj) (rest : JObj)
deriving DecidableEq, Repr

/-- digitChar d is the decimal digit character for d < 10. -/
def digitChar (d : Nat) : Char := Char.ofNat (48 + d)

/-- natDigitsFuel renders the decimal digits of n in front of acc,
recursing on explicit fuel (any fuel > n suffices). -/
def natDigitsFuel : Nat → Nat → List Char → List Char
  | 0, _, acc => acc
  | fuel + 1, n, acc =>
    if n < 10 then digitChar n :: acc
    else natDigitsFuel fuel (n / 10) (digitChar (n % 10) :: acc)

/-- natDigits renders the decimal digits of a natural number. -/
def natDigits (n : Nat) : List Char := natDigitsFuel (n + 1) n []

/-- stripZeros removes trailing decimal zeros of the fraction, the
normalization `FormatFloat` performs by printing shortest digits. -/
def stripZeros (m : Int) : Nat → Int × Nat
  | 0 => (m, 0)
  | e + 1 => if m % 10 = 0 then stripZeros (m / 10) e else (m, e + 1)

/-- formatDecimal renders `m * 10 ^ (-e)` the way
`strconv.FormatFloat(v, 'f', -1, 64)` renders the float64 whose
shortest decimal representation it is: fixed-point notation, no
exponent, no trailing fractional zeros. -/
def formatDecimal (m : Int) (e : Nat) : GoStr :=
  let p := stripZeros m e
  let s := natDigits p.1.natAbs
  let sign : GoStr := if p.1 < 0 then ['-'] else []
  if p.2 = 0 then sign ++ s
  else
    let padded := List.replicate (p.2 + 1 - s.length) '0' ++ s
    sign ++ padded.take (padded.length - p.2) ++ '.' :: padded.drop (padded.length - p.2)

/-- toString embeds the Go `toString` conversion (log_manager.go, lines
737-758) restricted to the value types `json.Unmarshal` produces:
strings are returned as-is, float64 renders via
`strconv.FormatFloat(v, 'f', -1, 64)`, booleans via `%t`, nil as "". -/
def toString : JScalar → GoStr
  | .str s => s
  | .num m e => formatDecimal m e
  | .jbool true => "true".toList
  | .jbool false => "false".toList
  | .jnull => []

/-- AList is a flattened object: dotted property name to string value,
the embedding of `FlatJsonObject`. -/
abbrev AList := List (GoStr × GoStr)

/-- flattenMapInternal embeds `flattenMapInternal` (log_manager.go,
lines 767-778): nested keys are joined with '.', scalar leaves are
written into the output map through `toString`. -/
def flattenMapInternal : JObj → AList → GoStr → AList
  | .nil, out, _ => out
  | .cons k v rest, out, pre => flattenMapInternal rest (upsert (pre ++ k) (toString v) out) pre
  | .consObj k v rest, out, pre =>
    flattenMapInternal rest (flattenMapInternal v out (pre ++ k ++ ['.'])) pre

/-- flattenMap embeds `flattenMap` (log_manager.go, lines 761-765). -/
def flattenMap (data : JObj) : AList := flattenMapInternal data [] []

/-- flatLookup models reading a Go `map[string]string`: a missing key
yields the zero value "". -/
def flatLookup (flat : AList) (k : GoStr) : GoStr := (lookupA flat k).getD []

/-- leavesAt enumerates the scalar leaves of an object together with
their dotted key, the reference view the flatten claims quantify over. -/
def leavesAt (pre : GoStr) : JObj → List (GoStr × JScalar)
  | .nil => []
  | .cons k v rest => (pre ++ k, v) :: leavesAt pre rest
  | .consObj k v rest => leavesAt (pre ++ k ++ ['.']) v ++ leavesAt pre rest

/-- leaves enumerates dotted keys and scalar leaves of an object. -/
def leaves (data : JObj) : List (GoStr × JScalar) := leavesAt [] data

/-- isUnicodeWhitespace embeds the character class of the
`unicodeWhitespace` pattern (part_007, line 20): the Unicode Zs
separators, Zl, Zp, and the ASCII controls tab, newline, formfeed,
carriage return. -/
def isUnicodeWhitespace (c : Char) : Bool :=
  c.toNat == 9 || c.toNat == 10 || c.toNat == 12 || c.toNat == 13 ||
  c.toNat == 0x20 || c.toNat == 0xA0 || c.toNat == 0x1680 ||
  (0x2000 ≤ c.toNat && c.toNat ≤ 0x200A) || c.toNat == 0x2028 || c.toNat == 0x2029 ||
  c.toNat == 0x202F || c.toNat == 0x205F || c.toNat == 0x3000

/-- splitOnWhitespace embeds `splitOnWhitespace` (part_007, lines
102-112): split on runs of Unicode whitespace and drop empty parts.
Splitting on each whitespace character and dropping empties equals
splitting on maximal whitespace runs and dropping empties. -/
def splitOnWhitespace (s : GoStr) : List GoStr :=
  (s.splitOnP isUnicodeWhitespace).filter (fun part => !part.isEmpty)

/-- stringSearch embeds `stringSearch` (part_007, lines 82-100): every
whitespace-separated chunk of the lowercased term must occur in some
flattened value, case-insensitively. -/
def stringSearch (searchTerm : GoStr) (flat : AList) : Bool :=
  (splitOnWhitespace (goToLower searchTerm)).all fun chunk =>
    flat.any fun kv => goContains (goToLower kv.2) chunk

/-- logMatchesFilter embeds `logMatchesFilter` (part_007, lines 39-52,
and identically log_manager.go, lines 587-600): every filtered property
must map, in the flat view, to a value listed for it.  A nil Go map
behaves as the empty list, which the early nil return also produces. -/
def logMatchesFilter (raw : JObj) (filter : List (GoStr × List GoStr)) : Bool :=
  filter.all fun pf => pf.2.contains (flatLookup (flattenMap raw) pf.1)

/-- logMatchesSearch embeds `LogSearch.logMatchesSearch` (part_007,
lines 55-80).  The argument `re` is the outcome of Go
`regexp.Compile("(?i)" + searchTerm)`: `some m` is a successfully
compiled matcher, `none` models a compile error (for example the
unbalanced bracket in the term "[a b"), in which case the code falls
back to `stringSearch`.  The function is total: no error escapes. -/
def logMatchesSearch (raw : JObj) (searchTerm : GoStr) (useRegexp : Bool)
    (re : Option (GoStr → Bool)) : Bool :=
  if searchTerm = [] then true
  else if useRegexp then
    match re with
    | none => stringSearch searchTerm (flattenMap raw)
    | some m => (flattenMap raw).any fun kv => m kv.2
  else stringSearch searchTerm (flattenMap raw)

/-- wholeTermLiteralSearch is the specification-side reading of claim
C2's fallback: a literal case-insensitive substring search of the
whole, unsplit term text against the flattened values.  It is defined
from the claim's words, to be compared with the source's fallback. -/
def wholeTermLiteralSearch (searchTerm : GoStr) (flat : AList) : Bool :=
  flat.any fun kv => goContains (goToLower kv.2) (goToLower searchTerm)

/-- SearchPayload embeds `SearchPayload` (log_manager.go, lines 391-394):
a search term and the per-property value filters.  A nil Go filter map
behaves as the empty list. -/
structure SearchPayload where
  searchTerm : GoStr
  filters : List (GoStr × List GoStr)

/-- logMatchesSearchLM embeds `logMatchesSearch` of the LogManager
(log_manager.go, lines 603-618): a nonempty term is lowercased and
searched as one whole substring of the lowercased flattened values. -/
def logMatchesSearchLM (raw : JObj) (searchTerm : GoStr) : Bool :=
  if searchTerm = [] then true
  else (flattenMap raw).any fun kv => goContains (goToLower kv.2) (goToLower searchTerm)

/-- logMatches embeds `logMatches` (log_manager.go, lines 582-584). -/
def logMatches (raw : JObj) (payload : SearchPayload) : Bool :=
  logMatchesFilter raw payload.filters && logMatchesSearchLM raw payload.searchTerm

/-- Config embeds `LogManagerConfig` (types.go, lines 26-31): the
numeric limits, fixed at process start.  The defaults are 10, 10000 and
50, all non-negative, so the limits are embedded as naturals. -/
structure Config where
  maxIndexValues : Nat
  maxLogs : Nat
  maxIndexValueLength : Nat
deriving DecidableEq, Repr

/-- Event records a callback invocation of the LogManager: `dropIndex`
is a `DropIndexKeysCallback` call; `updateIndex` stands for the
index-update broadcast an update callback would receive — the embedded
revision declares no such callback and never emits this event. -/
inductive Event where
  | dropIndex (keys : List GoStr)
  | updateIndex (counts : List (GoStr × List (GoStr × Nat)))
deriving DecidableEq, Repr

/-- Index embeds `map[PropName]map[PropValue][]LogId`. -/
abbrev Index := List (GoStr × List (GoStr × List Nat))

/-- CountsMap embeds `IndexCounts = map[PropName]map[PropValue]uint`. -/
abbrev CountsMap := List (GoStr × List (GoStr × Nat))

/-- LMState embeds the storage and indexing state of a `LogManager`
(log_manager.go, lines 417-437); the transient send buffer is not part
of the claims and is not modelled. -/
structure LMState where
  logOrder : List Nat
  logStore : List (Nat × JObj)
  index : Index
  blacklist : List GoStr
  idCounter : Nat
deriving DecidableEq, Repr

/-- NewLogManager embeds `NewLogManager` (log_manager.go, lines 443-453). -/
def NewLogManager : LMState :=
  { logOrder := [], logStore := [], index := [], blacklist := [], idCounter := 0 }

/-- omitIndexValue embeds `omitIndexValue` (log_manager.go, lines
700-711): empty values, values longer than maxIndexValueLength bytes
and blacklisted properties are not indexed. -/
def omitIndexValue (cfg : Config) (bl : List GoStr) (propName propValue : GoStr) : Bool :=
  propValue.isEmpty || decide (goLen propValue > cfg.maxIndexValueLength) ||
    bl.contains propName

/-- bucketAdd models `valMap[propValue] = append(valMap[propValue], entryId)`. -/
def bucketAdd : List (GoStr × List Nat) → GoStr → Nat → List (GoStr × List Nat)
  | [], v, id => [(v, [id])]
  | (v', ids) :: rest, v, id =>
    if v' = v then (v', ids ++ [id]) :: rest else (v', ids) :: bucketAdd rest v id

/-- addToIndex embeds `addToIndex` (log_manager.go, lines 635-655),
threading the index, the blacklist and the emitted events through the
loop over the flat pairs: a non-omitted pair is appended to its bucket,
and if the bucket then holds more than maxIndexValues distinct values
the property's bucket is deleted, the property is blacklisted, and a
drop notification naming it is emitted. -/
def addToIndex (cfg : Config) (entryId : Nat) :
    AList → Index → List GoStr → List Event → Index × List GoStr × List Event
  | [], idx, bl, evs => (idx, bl, evs)
  | (p, v) :: rest, idx, bl, evs =>
    if omitIndexValue cfg bl p v then addToIndex cfg entryId rest idx bl evs
    else if (bucketAdd ((lookupA idx p).getD []) v entryId).length > cfg.maxIndexValues then
      addToIndex cfg entryId rest (eraseKey p idx) (bl ++ [p]) (evs ++ [.dropIndex [p]])
    else
      addToIndex cfg entryId rest
        (upsert p (bucketAdd ((lookupA idx p).getD []) v entryId) idx) bl evs

/-- removeBucket is the inner update of `removeFromIndex` on one
property's value map: the entry id is filtered out of the value's id
list, and an emptied value key is deleted. -/
def removeBucket (entryId : Nat) (v : GoStr) (valMap : List (GoStr × List Nat)) :
    List (GoStr × List Nat) :=
  match lookupA valMap v with
  | none => valMap
  | some ids =>
    if ids.filter (fun i => i ≠ entryId) = [] then eraseKey v valMap
    else upsert v (ids.filter fun i => i ≠ entryId) valMap

/-- removeFromIndex embeds `removeFromIndex` (log_manager.go, lines
658-683): for each flat pair not over-length, the entry id is filtered
out of the pair's bucket; emptied value sets and emptied property
buckets are deleted. -/
def removeFromIndex (cfg : Config) (entryId : Nat) : AList → Index → Index
  | [], idx => idx
  | (p, v) :: rest, idx =>
    if decide (goLen v > cfg.maxIndexValueLength) then
      removeFromIndex cfg entryId rest idx
    else
      match lookupA idx p with
      | none => removeFromIndex cfg entryId rest idx
      | some valMap =>
        removeFromIndex cfg entryId rest
          (if removeBucket entryId v valMap = [] then eraseKey p idx
           else upsert p (removeBucket entryId v valMap) idx)

/-- GetIndexCounts embeds `GetIndexCounts` (log_manager.go, lines
714-723): the length of every bucket's id list. -/
def GetIndexCounts (idx : Index) : CountsMap :=
  idx.map fun pvm => (pvm.1, pvm.2.map fun vids => (vids.1, vids.2.length))

/-- enforceMaxLogs embeds `enforceMaxLogs` (log_manager.go, lines
621-632): when over capacity the oldest id leaves the order, its flat
view is removed from the index and it is deleted from the store.  This
revision emits no notification here: the body carries the comment
"tod o Notify via callback about index update" in place of a call, and
its `LogManagerConfig` declares no update callback. -/
def enforceMaxLogs (cfg : Config) (st : LMState) : LMState :=
  if st.logOrder.length > cfg.maxLogs then
    match st.logOrder with
    | [] => st
    | oldest :: restOrder =>
      match lookupA st.logStore oldest with
      | none => { st with logOrder := restOrder }
      | some raw =>
        { st with
            logOrder := restOrder
            index := removeFromIndex cfg oldest (flattenMap raw) st.index
            logStore := eraseKey oldest st.logStore }
  else st

/-- AddLogEntry embeds `AddLogEntry` (log_manager.go, lines 455-477):
allocate the next id, store the entry, append it to the order, index
its flat view, then enforce the capacity bound.  The result carries the
new state, the events emitted, and the id.  The send buffer, which only
feeds the periodic flush, is not modelled. -/
def AddLogEntry (cfg : Config) (st : LMState) (raw : JObj) : LMState × List Event × Nat :=
  (enforceMaxLogs cfg
    { logOrder := st.logOrder ++ [st.idCounter + 1]
      logStore := upsert (st.idCounter + 1) raw st.logStore
      index := (addToIndex cfg (st.idCounter + 1) (flattenMap raw)
        st.index st.blacklist []).1
      blacklist := (addToIndex cfg (st.idCounter + 1) (flattenMap raw)
        st.index st.blacklist []).2.1
      idCounter := st.idCounter + 1 },
   (addToIndex cfg (st.idCounter + 1) (flattenMap raw) st.index st.blacklist []).2.2,
   st.idCounter + 1)

/-- addAll folds AddLogEntry over a list of raw entries. -/
def addAll (cfg : Config) (st : LMState) : List JObj → LMState
  | [] => st
  | r :: rs => addAll cfg (AddLogEntry cfg st r).1 rs

/-- GetLastLogs embeds `GetLastLogs` (log_manager.go, lines 498-513). -/
def GetLastLogs (st : LMState) (n : Nat) : List JObj :=
  (st.logOrder.drop
      (if st.logOrder.length > n then st.logOrder.length - n else 0)).filterMap
    fun id => lookupA st.logStore id

/-- GetLogsCount embeds `GetLogsCount` (log_manager.go, lines 726-730). -/
def GetLogsCount (st : LMState) : Nat := st.logStore.length

/-- countsInc models `newCounts[propName][propValue]++` together with
the auto-creation of a missing inner map. -/
def countsInc (counts : CountsMap) (p v : GoStr) : CountsMap :=
  match lookupA counts p with
  | none => counts ++ [(p, [(v, 1)])]
  | some inner =>
    match lookupA inner v with
    | none => upsert p (inner ++ [(v, 1)]) counts
    | some c => upsert p (upsert v (c + 1) inner) counts

/-- incAll applies countsInc to every non-omitted flat pair: the common
loop body of SearchLogs (lines 552-561) and of
increaseClientIndexCounts (lines 687-697). -/
def incAll (cfg : Config) (bl : List GoStr) (counts : CountsMap) : AList → CountsMap
  | [] => counts
  | (p, v) :: rest =>
    if omitIndexValue cfg bl p v then incAll cfg bl counts rest
    else incAll cfg bl (countsInc counts p v) rest

/-- increaseClientIndexCounts embeds `increaseClientIndexCounts`
(log_manager.go, lines 685-698); the filters argument of the source is
ignored by its body and therefore not a parameter here. -/
def increaseClientIndexCounts (cfg : Config) (bl : List GoStr)
    (indexCounts : CountsMap) : List JObj → CountsMap
  | [] => indexCounts
  | log :: logs =>
    increaseClientIndexCounts cfg bl (incAll cfg bl indexCounts (flattenMap log)) logs

/-- initClientCounts embeds the initialization loop of SearchLogs
(log_manager.go, lines 523-540): for a filtered property, an allowed
value starts at 0 and a value outside the allowed set keeps the global
count; every value of a non-filtered property starts at 0. -/
def initClientCounts (filters : List (GoStr × List GoStr)) (globalCounts : CountsMap) :
    CountsMap :=
  globalCounts.map fun pvs =>
    (pvs.1, pvs.2.map fun vc =>
      (vc.1,
        match lookupA filters pvs.1 with
        | some allowed => if allowed.contains vc.1 then 0 else vc.2
        | none => 0))

/-- searchLoop embeds the reverse scan of SearchLogs (log_manager.go,
lines 542-564): newest to oldest, every matching entry is prepended to
the result while fewer than maxLogs matches were kept, and its
non-omitted flat pairs increment the client counts. -/
def searchLoop (cfg : Config) (st : LMState) (payload : SearchPayload) (maxLogs : Nat) :
    List Nat → List JObj → CountsMap → Nat → List JObj × CountsMap
  | [], res, counts, _ => (res, counts)
  | eid :: rest, res, counts, count =>
    match lookupA st.logStore eid with
    | none => searchLoop cfg st payload maxLogs rest res counts count
    | some raw =>
      if logMatches raw payload then
        searchLoop cfg st payload maxLogs rest
          (if count < maxLogs then raw :: res else res)
          (incAll cfg st.blacklist counts (flattenMap raw))
          (count + 1)
      else searchLoop cfg st payload maxLogs rest res counts count

/-- SearchLogs embeds `SearchLogs` (log_manager.go, lines 516-570): the
filtered logs plus the per-client index-count snapshot delivered in the
set_logs reply. -/
def SearchLogs (cfg : Config) (st : LMState) (payload : SearchPayload) (maxLogs : Nat) :
    List JObj × CountsMap :=
  searchLoop cfg st payload maxLogs st.logOrder.reverse []
    (initClientCounts payload.filters (GetIndexCounts st.index)) 0

/-- countsOpt reads a CountsMap at a property and value. -/
def countsOpt (counts : CountsMap) (p v : GoStr) : Option Nat :=
  (lookupA counts p).bind fun inner => lookupA inner v

/-- counts0 reads a CountsMap at a property and value, defaulting to 0. -/
def counts0 (counts : CountsMap) (p v : GoStr) : Nat := (countsOpt counts p v).getD 0

/-- idInIndex is true when the id sits in some index bucket: the
reference predicate of claim C3. -/
def idInIndex (idx : Index) (id : Nat) : Bool :=
  idx.any fun pvm => pvm.2.any fun vids => vids.2.contains id

/-- retainedCount counts the retained entries whose flat view maps p to
v: the reference quantity of claim C9. -/
def retainedCount (st : LMState) (p v : GoStr) : Nat :=
  st.logOrder.countP fun id =>
    match lookupA st.logStore id with
    | some raw => lookupA (flattenMap raw) p == some v
    | none => false

/-- matchingCount counts the matching retained entries of a SearchLogs
scan whose flat view holds the non-omitted pair (p, v): the running
count of claim C1. -/
def matchingCount (cfg : Config) (st : LMState) (payload : SearchPayload) (p v : GoStr) :
    Nat :=
  (st.logOrder.reverse.filterMap fun id => lookupA st.logStore id).countP fun raw =>
    logMatches raw payload && (lookupA (flattenMap raw) p == some v) &&
      !omitIndexValue cfg st.blacklist p v

/-- KeysNodup states that an association list has pairwise distinct keys. -/
def KeysNodup {κ β : Type} (m : List (κ × β)) : Prop := (keysOf m).Nodup

/-- bucketGet reads the id list of one property value of the index. -/
def bucketGet (idx : Index) (p v : GoStr) : Option (List Nat) :=
  (lookupA idx p).bind fun vm => lookupA vm v

/-- idInBucket states that an id sits in the (p, v) bucket of the index. -/
def idInBucket (idx : Index) (p v : GoStr) (id : Nat) : Prop :=
  ∃ ids, bucketGet idx p v = some ids ∧ id ∈ ids

/-- LMInv collects the invariants of a reachable LogManager state: the
order and store agree, stay within maxLogs, ids are bounded by the
counter, every index bucket holds distinct ids of retained entries
whose flat views carry the indexed pair within the length cap, bucket
cardinalities respect maxIndexValues, and blacklisted properties have
no bucket. -/
structure LMInv (cfg : Config) (st : LMState) : Prop where
  orderNodup : st.logOrder.Nodup
  storeNodup : KeysNodup st.logStore
  storeKeys : ∀ id, (lookupA st.logStore id).isSome = true ↔ id ∈ st.logOrder
  storeLen : st.logStore.length = st.logOrder.length
  orderLe : st.logOrder.length ≤ cfg.maxLogs
  idBound : ∀ id ∈ st.logOrder, id ≤ st.idCounter
  idxNodup : KeysNodup st.index
  bucketNodup : ∀ p vm, lookupA st.index p = some vm → KeysNodup vm
  bucketSize : ∀ p vm, lookupA st.index p = some vm → vm.length ≤ cfg.maxIndexValues
  bucketIdsNodup : ∀ p v ids, bucketGet st.index p v = some ids → ids.Nodup
  bucketIdsMem : ∀ p v i, idInBucket st.index p v i →
    i ∈ st.logOrder ∧
    (∀ raw, lookupA st.logStore i = some raw → lookupA (flattenMap raw) p = some v) ∧
    goLen v ≤ cfg.maxIndexValueLength
  blackNoBucket : ∀ p ∈ st.blacklist, lookupA st.index p = none

/-- entryInfo is the concrete log line with level INFO used by witnesses. -/
def entryInfo : JObj := .cons "level".toList (.str "INFO".toList) .nil

/-- entryError is the concrete log line with level ERROR used by witnesses. -/
def entryError : JObj := .cons "level".toList (.str "ERROR".toList) .nil

/-- entryWarn is the concrete log line with level WARN used by witnesses. -/
def entryWarn : JObj := .cons "level".toList (.str "WARN".toList) .nil

/-- entryDebug is the concrete log line with level DEBUG used by witnesses. -/
def entryDebug : JObj := .cons "level".toList (.str "DEBUG".toList) .nil

example : natDigits 1230 = ['1', '2', '3', '0'] := by decide
example : formatDecimal 123 0 = ['1', '2', '3'] := by decide
example : formatDecimal (-1050) 2 = ['-', '1', '0', '.', '5'] := by decide
example : formatDecimal 5 3 = ['0', '.', '0', '0', '5'] := by decide
example : formatDecimal 5000 3 = ['5'] := by decide
example :
    flattenMap (.consObj "context".toList
      (.consObj "bindings".toList (.cons "userId".toList (.str "1020".toList) .nil) .nil)
      .nil) =
    [("context.bindings.userId".toList, "1020".toList)] := by decide
example : goContains "xABy".toList "AB".toList = true := by decide
example : goContains "xABy".toList "BA".toList = false := by decide

section AssocLemmas

variable {κ β : Type} [DecidableEq κ]

/-- Looking up the key just written returns the written value. -/
theorem lookupA_upsert_self (k : κ) (v : β) (m : List (κ × β)) :
    lookupA (upsert k v m) k = some v := by
  induction m with
  | nil => simp [upsert, lookupA]
  | cons kv rest ih =>
    obtain ⟨k', v'⟩ := kv
    unfold upsert
    by_cases h : k' = k
    · rw [if_pos h]
      simp [lookupA]
    · rw [if_neg h]
      simp only [lookupA, if_neg h]
      exact ih

/-- Writing one key leaves lookups of other keys unchanged. -/
theorem lookupA_upsert_ne (k q : κ) (v : β) (m : List (κ × β)) (h : q ≠ k) :
    lookupA (upsert k v m) q = lookupA m q := by
  have hkq : k ≠ q := Ne.symm h
  induction m with
  | nil => simp [upsert, lookupA, hkq]
  | cons kv rest ih =>
    obtain ⟨k', v'⟩ := kv
    unfold upsert
    by_cases hk : k' = k
    · rw [if_pos hk]
      subst hk
      simp only [lookupA, if_neg hkq, if_neg (show k' ≠ q from hkq)]
    · rw [if_neg hk]
      by_cases hq : k' = q
      · simp only [lookupA, if_pos hq]
      · simp only [lookupA, if_neg hq]
        exact ih

/-- Looking up a deleted key yields nothing. -/
theorem lookupA_eraseKey_self (k : κ) (m : List (κ × β)) :
    lookupA (eraseKey k m) k = none := by
  induction m with
  | nil => rfl
  | cons kv rest ih =>
    obtain ⟨k', v'⟩ := kv
    unfold eraseKey
    by_cases h : k' = k
    · rw [if_pos h]
      exact ih
    · rw [if_neg h]
      simp only [lookupA, if_neg h]
      exact ih

/-- Deleting one key leaves lookups of other keys unchanged. -/
theorem lookupA_eraseKey_ne (k q : κ) (m : List (κ × β)) (h : q ≠ k) :
    lookupA (eraseKey k m) q = lookupA m q := by
  induction m with
  | nil => rfl
  | cons kv rest ih =>
    obtain ⟨k', v'⟩ := kv
    unfold eraseKey
    by_cases hk : k' = k
    · rw [if_pos hk]
      subst hk
      simp only [lookupA, if_neg (show k' ≠ q from Ne.symm h)]
      exact ih
    · rw [if_neg hk]
      by_cases hq : k' = q
      · simp only [lookupA, if_pos hq]
      · simp only [lookupA, if_neg hq]
        exact ih

/-- Deleting keeps a sublist of the entries. -/
theorem eraseKey_sublist (k : κ) (m : List (κ × β)) : (eraseKey k m).Sublist m := by
  induction m with
  | nil => exact List.Sublist.refl _
  | cons kv rest ih =>
    obtain ⟨k', v'⟩ := kv
    unfold eraseKey
    by_cases h : k' = k
    · rw [if_pos h]
      exact ih.cons _
    · rw [if_neg h]
      exact ih.cons₂ _

/-- Lookup over concatenation reads the left list first. -/
theorem lookupA_append (m l : List (κ × β)) (k : κ) :
    lookupA (m ++ l) k = match lookupA m k with
      | some v => some v
      | none => lookupA l k := by
  induction m with
  | nil => simp [lookupA]
  | cons kv rest ih =>
    obtain ⟨k', v'⟩ := kv
    by_cases h : k' = k <;> simp [lookupA, h, ih]

/-- A successful lookup is a membership. -/
theorem lookupA_mem {m : List (κ × β)} {k : κ} {v : β} (h : lookupA m k = some v) :
    (k, v) ∈ m := by
  induction m with
  | nil => simp [lookupA] at h
  | cons kv rest ih =>
    obtain ⟨k', v'⟩ := kv
    unfold lookupA at h
    by_cases hk : k' = k
    · rw [if_pos hk] at h
      subst hk
      cases h
      exact List.mem_cons_self _ _
    · rw [if_neg hk] at h
      exact List.mem_cons_of_mem _ (ih h)

/-- A lookup fails exactly on the missing keys. -/
theorem lookupA_eq_none_iff (m : List (κ × β)) (k : κ) :
    lookupA m k = none ↔ k ∉ keysOf m := by
  induction m with
  | nil => simp [lookupA, keysOf]
  | cons kv rest ih =>
    obtain ⟨k', v'⟩ := kv
    unfold lookupA
    by_cases hk : k' = k
    · subst hk
      simp [keysOf]
    · rw [if_neg hk, ih]
      unfold keysOf
      simp only [List.map_cons, List.mem_cons]
      constructor
      · intro h hc
        rcases hc with hc | hc
        · exact hk hc.symm
        · exact h hc
      · intro h hc
        exact h (Or.inr hc)

/-- With unique keys, membership determines the lookup. -/
theorem mem_lookupA {m : List (κ × β)} (hm : KeysNodup m) {k : κ} {v : β}
    (h : (k, v) ∈ m) : lookupA m k = some v := by
  induction m with
  | nil => simp at h
  | cons kv rest ih =>
    obtain ⟨k', v'⟩ := kv
    unfold KeysNodup keysOf at hm
    simp only [List.map_cons, List.nodup_cons] at hm
    rcases List.mem_cons.mp h with h1 | h1
    · cases h1
      simp [lookupA]
    · have hk : k' ≠ k := by
        intro he
        subst he
        exact hm.1 (List.mem_map.mpr ⟨(k', v), h1, rfl⟩)
      simp only [lookupA, if_neg hk]
      exact ih hm.2 h1

/-- The keys after a write are the old keys plus the written key. -/
theorem mem_keysOf_upsert (k q : κ) (v : β) (m : List (κ × β)) :
    q ∈ keysOf (upsert k v m) ↔ q ∈ keysOf m ∨ q = k := by
  induction m with
  | nil => simp [upsert, keysOf]
  | cons kv rest ih =>
    obtain ⟨k', v'⟩ := kv
    unfold upsert
    by_cases h : k' = k
    · subst h
      simp [keysOf, List.map_cons]
      tauto
    · simp only [if_neg h, keysOf, List.map_cons, List.mem_cons]
      rw [show (List.map Prod.fst (upsert k v rest)) = keysOf (upsert k v rest) from rfl]
      rw [ih]
      tauto

/-- Writing preserves key uniqueness. -/
theorem keysNodup_upsert (k : κ) (v : β) {m : List (κ × β)} (hm : KeysNodup m) :
    KeysNodup (upsert k v m) := by
  induction m with
  | nil => simp [upsert, KeysNodup, keysOf]
  | cons kv rest ih =>
    obtain ⟨k', v'⟩ := kv
    unfold KeysNodup keysOf at hm ⊢
    simp only [List.map_cons, List.nodup_cons] at hm
    unfold upsert
    by_cases h : k' = k
    · subst h
      simpa [KeysNodup, keysOf] using hm
    · simp only [if_neg h, keysOf, List.map_cons, List.nodup_cons]
      refine ⟨?_, ih hm.2⟩
      intro hmem
      rcases (mem_keysOf_upsert k k' v rest).mp hmem with h1 | h1
      · exact hm.1 h1
      · exact h h1

/-- Deleting preserves key uniqueness. -/
theorem keysNodup_eraseKey (k : κ) {m : List (κ × β)} (hm : KeysNodup m) :
    KeysNodup (eraseKey k m) :=
  hm.sublist ((eraseKey_sublist k m).map Prod.fst)

/-- Deleting a key absent from the list changes nothing. -/
theorem eraseKey_of_not_mem {k : κ} {m : List (κ × β)} (h : k ∉ keysOf m) :
    eraseKey k m = m := by
  induction m with
  | nil => rfl
  | cons kv rest ih =>
    obtain ⟨k', v'⟩ := kv
    unfold eraseKey
    simp only [keysOf, List.map_cons, List.mem_cons] at h
    push_neg at h
    rw [if_neg (fun he => h.1 he.symm), ih h.2]

/-- With unique keys, deleting a present key drops exactly one entry. -/
theorem length_eraseKey {m : List (κ × β)} (hm : KeysNodup m) {k : κ}
    (h : k ∈ keysOf m) : (eraseKey k m).length + 1 = m.length := by
  induction m with
  | nil => simp [keysOf] at h
  | cons kv rest ih =>
    obtain ⟨k', v'⟩ := kv
    unfold KeysNodup keysOf at hm
    simp only [List.map_cons, List.nodup_cons] at hm
    unfold eraseKey
    by_cases hk : k' = k
    · subst hk
      rw [if_pos rfl, eraseKey_of_not_mem hm.1, List.length_cons]
    · have hkr : k ∈ keysOf rest := by
        rcases List.mem_cons.mp (show k ∈ k' :: List.map Prod.fst rest from h) with h1 | h1
        · exact absurd h1.symm hk
        · exact h1
      rw [if_neg hk, List.length_cons, List.length_cons, ih hm.2 hkr]

/-- Writing a present key keeps the length. -/
theorem length_upsert_mem (k : κ) (v : β) {m : List (κ × β)} (h : k ∈ keysOf m) :
    (upsert k v m).length = m.length := by
  induction m with
  | nil => simp [keysOf] at h
  | cons kv rest ih =>
    obtain ⟨k', v'⟩ := kv
    unfold upsert
    by_cases hk : k' = k
    · rw [if_pos hk]
      simp
    · rw [if_neg hk, List.length_cons, List.length_cons, ih]
      rcases List.mem_cons.mp (show k ∈ k' :: List.map Prod.fst rest from h) with h1 | h1
      · exact absurd h1.symm hk
      · exact h1

end AssocLemmas

/-- bucketAdd appends the id to the addressed value's list. -/
theorem lookupA_bucketAdd_self (vm : List (GoStr × List Nat)) (v : GoStr) (id : Nat) :
    lookupA (bucketAdd vm v id) v = some (((lookupA vm v).getD []) ++ [id]) := by
  induction vm with
  | nil => simp [bucketAdd, lookupA]
  | cons vi rest ih =>
    obtain ⟨v', ids⟩ := vi
    unfold bucketAdd
    by_cases h : v' = v
    · subst h
      simp [lookupA]
    · rw [if_neg h]
      simp only [lookupA, if_neg h]
      exact ih

/-- bucketAdd leaves other values' lists unchanged. -/
theorem lookupA_bucketAdd_ne (vm : List (GoStr × List Nat)) (v w : GoStr) (id : Nat)
    (h : w ≠ v) : lookupA (bucketAdd vm v id) w = lookupA vm w := by
  induction vm with
  | nil => simp [bucketAdd, lookupA, Ne.symm h]
  | cons vi rest ih =>
    obtain ⟨v', ids⟩ := vi
    unfold bucketAdd
    by_cases hv : v' = v
    · subst hv
      simp only [lookupA, if_neg (show v' ≠ w from Ne.symm h)]
    · rw [if_neg hv]
      by_cases hw : v' = w
      · simp only [lookupA, if_pos hw]
      · simp only [lookupA, if_neg hw]
        exact ih

/-- The keys after bucketAdd are the old keys plus the added value. -/
theorem mem_keysOf_bucketAdd (vm : List (GoStr × List Nat)) (v q : GoStr) (id : Nat) :
    q ∈ keysOf (bucketAdd vm v id) ↔ q ∈ keysOf vm ∨ q = v := by
  induction vm with
  | nil => simp [bucketAdd, keysOf, eq_comm]
  | cons vi rest ih =>
    obtain ⟨v', ids⟩ := vi
    unfold bucketAdd
    by_cases hv : v' = v
    · subst hv
      simp [keysOf, List.map_cons]
      tauto
    · simp only [if_neg hv, keysOf, List.map_cons, List.mem_cons]
      rw [show List.map Prod.fst (bucketAdd rest v id) = keysOf (bucketAdd rest v id) from rfl,
        ih]
      tauto

/-- bucketAdd preserves key uniqueness. -/
theorem keysNodup_bucketAdd (vm : List (GoStr × List Nat)) (v : GoStr) (id : Nat)
    (h : KeysNodup vm) : KeysNodup (bucketAdd vm v id) := by
  induction vm with
  | nil => simp [bucketAdd, KeysNodup, keysOf]
  | cons vi rest ih =>
    obtain ⟨v', ids⟩ := vi
    unfold KeysNodup keysOf at h ⊢
    simp only [List.map_cons, List.nodup_cons] at h
    unfold bucketAdd
    by_cases hv : v' = v
    · subst hv
      simpa [KeysNodup, keysOf] using h
    · simp only [if_neg hv, List.map_cons, List.nodup_cons]
      refine ⟨?_, ih h.2⟩
      intro hmem
      rcases (mem_keysOf_bucketAdd rest v v' id).mp hmem with h1 | h1
      · exact h.1 h1
      · exact hv h1

/-- The flatten loop preserves key uniqueness of the output map. -/
theorem keysNodup_flattenMapInternal (o : JObj) :
    ∀ out pre, KeysNodup out → KeysNodup (flattenMapInternal o out pre) := by
  induction o with
  | nil => intro out pre h; exact h
  | cons k v rest ih =>
    intro out pre h
    exact ih _ _ (keysNodup_upsert _ _ h)
  | consObj k v rest ihv ihrest =>
    intro out pre h
    exact ihrest _ _ (ihv _ _ h)

/-- Every flat view has pairwise distinct dotted keys. -/
theorem keysNodup_flattenMap (raw : JObj) : KeysNodup (flattenMap raw) :=
  keysNodup_flattenMapInternal raw [] [] List.nodup_nil

/-- Looking up under a value-mapping of an association list. -/
theorem lookupA_map_val {κ β γ : Type} [DecidableEq κ]
    (f : κ → β → γ) (m : List (κ × β)) (k : κ) :
    lookupA (m.map fun kv => (kv.1, f kv.1 kv.2)) k = (lookupA m k).map (f k) := by
  induction m with
  | nil => rfl
  | cons kv rest ih =>
    obtain ⟨k', v'⟩ := kv
    simp only [List.map_cons, lookupA]
    by_cases h : k' = k
    · subst h
      simp
    · rw [if_neg h, if_neg h, ih]

/-- bucketGet through a write of the same property. -/
theorem bucketGet_upsert_self (idx : Index) (vm : List (GoStr × List Nat))
    (p w : GoStr) : bucketGet (upsert p vm idx) p w = lookupA vm w := by
  unfold bucketGet
  rw [lookupA_upsert_self]
  rfl

/-- bucketGet through a write of another property. -/
theorem bucketGet_upsert_ne (idx : Index) (vm : List (GoStr × List Nat))
    (p q w : GoStr) (h : q ≠ p) :
    bucketGet (upsert p vm idx) q w = bucketGet idx q w := by
  unfold bucketGet
  rw [lookupA_upsert_ne _ _ _ _ h]

/-- bucketGet of a deleted property. -/
theorem bucketGet_eraseKey_self (idx : Index) (p w : GoStr) :
    bucketGet (eraseKey p idx) p w = none := by
  unfold bucketGet
  rw [lookupA_eraseKey_self]
  rfl

/-- bucketGet through a delete of another property. -/
theorem bucketGet_eraseKey_ne (idx : Index) (p q w : GoStr) (h : q ≠ p) :
    bucketGet (eraseKey p idx) q w = bucketGet idx q w := by
  unfold bucketGet
  rw [lookupA_eraseKey_ne _ _ _ h]

/-- A false omitIndexValue splits into its three reasons failing. -/
theorem omitIndexValue_eq_false {cfg : Config} {bl : List GoStr} {p v : GoStr}
    (h : omitIndexValue cfg bl p v = false) :
    v ≠ [] ∧ goLen v ≤ cfg.maxIndexValueLength ∧ p ∉ bl := by
  unfold omitIndexValue at h
  simp only [Bool.or_eq_false_iff] at h
  obtain ⟨⟨h1, h2⟩, h3⟩ := h
  refine ⟨by simpa using h1, ?_, by simpa using h3⟩
  have h2' : ¬goLen v > cfg.maxIndexValueLength := by simpa using h2
  omega

/-- addToIndex only touches buckets of processed keys. -/
theorem addToIndex_untouched (cfg : Config) (id : Nat) (cur : AList) :
    ∀ idx bl evs q, q ∉ keysOf cur →
      lookupA (addToIndex cfg id cur idx bl evs).1 q = lookupA idx q := by
  induction cur with
  | nil => intro idx bl evs q _; rfl
  | cons pv rest ih =>
    obtain ⟨p₀, v₀⟩ := pv
    intro idx bl evs q hq
    have hq₀ : q ≠ p₀ := by
      intro he
      exact hq (by simp [keysOf, he])
    have hqr : q ∉ keysOf rest := by
      intro hm
      exact hq (by simp only [keysOf, List.map_cons, List.mem_cons]; exact Or.inr hm)
    unfold addToIndex
    by_cases ho : omitIndexValue cfg bl p₀ v₀ = true
    · rw [if_pos ho]
      exact ih _ _ _ _ hqr
    · rw [if_neg ho]
      by_cases hl : (bucketAdd ((lookupA idx p₀).getD []) v₀ id).length > cfg.maxIndexValues
      · rw [if_pos hl, ih _ _ _ _ hqr, lookupA_eraseKey_ne _ _ _ hq₀]
      · rw [if_neg hl, ih _ _ _ _ hqr, lookupA_upsert_ne _ _ _ _ hq₀]

/-- Blacklisting is monotone across one addToIndex call. -/
theorem addToIndex_blacklist_mono (cfg : Config) (id : Nat) (cur : AList) :
    ∀ idx bl evs p, p ∈ bl → p ∈ (addToIndex cfg id cur idx bl evs).2.1 := by
  induction cur with
  | nil => intro idx bl evs p hp; exact hp
  | cons pv rest ih =>
    obtain ⟨p₀, v₀⟩ := pv
    intro idx bl evs p hp
    unfold addToIndex
    by_cases ho : omitIndexValue cfg bl p₀ v₀ = true
    · rw [if_pos ho]
      exact ih _ _ _ _ hp
    · rw [if_neg ho]
      by_cases hl : (bucketAdd ((lookupA idx p₀).getD []) v₀ id).length > cfg.maxIndexValues
      · rw [if_pos hl]
        exact ih _ _ _ _ (List.mem_append_left _ hp)
      · rw [if_neg hl]
        exact ih _ _ _ _ hp

/-- Events are only appended across one addToIndex call. -/
theorem addToIndex_events_mono (cfg : Config) (id : Nat) (cur : AList) :
    ∀ idx bl evs e, e ∈ evs → e ∈ (addToIndex cfg id cur idx bl evs).2.2 := by
  induction cur with
  | nil => intro idx bl evs e he; exact he
  | cons pv rest ih =>
    obtain ⟨p₀, v₀⟩ := pv
    intro idx bl evs e he
    unfold addToIndex
    by_cases ho : omitIndexValue cfg bl p₀ v₀ = true
    · rw [if_pos ho]
      exact ih _ _ _ _ he
    · rw [if_neg ho]
      by_cases hl : (bucketAdd ((lookupA idx p₀).getD []) v₀ id).length > cfg.maxIndexValues
      · rw [if_pos hl]
        exact ih _ _ _ _ (List.mem_append_left _ he)
      · rw [if_neg hl]
        exact ih _ _ _ _ he

/-- A property blacklisted by addToIndex was already blacklisted or has
its drop notification among the emitted events. -/
theorem addToIndex_blacklist_event (cfg : Config) (id : Nat) (cur : AList) :
    ∀ idx bl evs p, p ∈ (addToIndex cfg id cur idx bl evs).2.1 →
      p ∈ bl ∨ Event.dropIndex [p] ∈ (addToIndex cfg id cur idx bl evs).2.2 := by
  induction cur with
  | nil => intro idx bl evs p hp; exact Or.inl hp
  | cons pv rest ih =>
    obtain ⟨p₀, v₀⟩ := pv
    intro idx bl evs p hp
    unfold addToIndex at hp ⊢
    by_cases ho : omitIndexValue cfg bl p₀ v₀ = true
    · rw [if_pos ho] at hp ⊢
      exact ih _ _ _ _ hp
    · rw [if_neg ho] at hp ⊢
      by_cases hl : (bucketAdd ((lookupA idx p₀).getD []) v₀ id).length > cfg.maxIndexValues
      · rw [if_pos hl] at hp ⊢
        rcases ih _ _ _ _ hp with hin | hev
        · rcases List.mem_append.mp hin with hin | hin
          · exact Or.inl hin
          · right
            have : Event.dropIndex [p] ∈ evs ++ [Event.dropIndex [p₀]] := by
              simp only [List.mem_singleton] at hin
              subst hin
              exact List.mem_append_right _ (List.mem_singleton.mpr rfl)
            exact addToIndex_events_mono cfg id rest _ _ _ _ this
        · exact Or.inr hev
      · rw [if_neg hl] at hp ⊢
        exact ih _ _ _ _ hp

/-- addToIndex keeps blacklisted properties bucket-free. -/
theorem addToIndex_blackNoBucket (cfg : Config) (id : Nat) (cur : AList) :
    ∀ idx bl evs, (∀ p ∈ bl, lookupA idx p = none) →
      ∀ p ∈ (addToIndex cfg id cur idx bl evs).2.1,
        lookupA (addToIndex cfg id cur idx bl evs).1 p = none := by
  induction cur with
  | nil => intro idx bl evs h p hp; exact h p hp
  | cons pv rest ih =>
    obtain ⟨p₀, v₀⟩ := pv
    intro idx bl evs h p hp
    unfold addToIndex at hp ⊢
    by_cases ho : omitIndexValue cfg bl p₀ v₀ = true
    · rw [if_pos ho] at hp ⊢
      exact ih _ _ _ h p hp
    · rw [if_neg ho] at hp ⊢
      by_cases hl : (bucketAdd ((lookupA idx p₀).getD []) v₀ id).length > cfg.maxIndexValues
      · rw [if_pos hl] at hp ⊢
        refine ih _ _ _ ?_ p hp
        intro q hq
        by_cases hq₀ : q = p₀
        · subst hq₀
          exact lookupA_eraseKey_self _ _
        · rw [lookupA_eraseKey_ne _ _ _ hq₀]
          rcases List.mem_append.mp hq with hq' | hq'
          · exact h q hq'
          · simp only [List.mem_singleton] at hq'
            exact absurd hq' hq₀
      · rw [if_neg hl] at hp ⊢
        refine ih _ _ _ ?_ p hp
        intro q hq
        have hnb := (omitIndexValue_eq_false (Bool.eq_false_iff.mpr ho)).2.2
        have hq₀ : q ≠ p₀ := fun he => hnb (he ▸ hq)
        rw [lookupA_upsert_ne _ _ _ _ hq₀]
        exact h q hq

/-- addToIndex preserves key uniqueness of the index. -/
theorem addToIndex_keysNodup (cfg : Config) (id : Nat) (cur : AList) :
    ∀ idx bl evs, KeysNodup idx → KeysNodup (addToIndex cfg id cur idx bl evs).1 := by
  induction cur with
  | nil => intro idx bl evs h; exact h
  | cons pv rest ih =>
    obtain ⟨p₀, v₀⟩ := pv
    intro idx bl evs h
    unfold addToIndex
    by_cases ho : omitIndexValue cfg bl p₀ v₀ = true
    · rw [if_pos ho]
      exact ih _ _ _ h
    · rw [if_neg ho]
      by_cases hl : (bucketAdd ((lookupA idx p₀).getD []) v₀ id).length > cfg.maxIndexValues
      · rw [if_pos hl]
        exact ih _ _ _ (keysNodup_eraseKey _ h)
      · rw [if_neg hl]
        exact ih _ _ _ (keysNodup_upsert _ _ h)

/-- addToIndex preserves key uniqueness of every bucket. -/
theorem addToIndex_bucketNodup (cfg : Config) (id : Nat) (cur : AList) :
    ∀ idx bl evs, (∀ p vm, lookupA idx p = some vm → KeysNodup vm) →
      ∀ p vm, lookupA (addToIndex cfg id cur idx bl evs).1 p = some vm →
        KeysNodup vm := by
  induction cur with
  | nil => intro idx bl evs h; exact h
  | cons pv rest ih =>
    obtain ⟨p₀, v₀⟩ := pv
    intro idx bl evs h
    unfold addToIndex
    by_cases ho : omitIndexValue cfg bl p₀ v₀ = true
    · rw [if_pos ho]
      exact ih _ _ _ h
    · rw [if_neg ho]
      by_cases hl : (bucketAdd ((lookupA idx p₀).getD []) v₀ id).length > cfg.maxIndexValues
      · rw [if_pos hl]
        refine ih _ _ _ ?_
        intro p vm hp
        by_cases hp₀ : p = p₀
        · subst hp₀
          rw [lookupA_eraseKey_self] at hp
          cases hp
        · rw [lookupA_eraseKey_ne _ _ _ hp₀] at hp
          exact h p vm hp
      · rw [if_neg hl]
        refine ih _ _ _ ?_
        intro p vm hp
        by_cases hp₀ : p = p₀
        · subst hp₀
          rw [lookupA_upsert_self] at hp
          cases hp
          apply keysNodup_bucketAdd
          cases hx : lookupA idx p with
          | none => simp [KeysNodup, keysOf]
          | some vm₀ =>
            simp only [Option.getD_some]
            exact h p vm₀ hx
        · rw [lookupA_upsert_ne _ _ _ _ hp₀] at hp
          exact h p vm hp

/-- addToIndex keeps every bucket within the cardinality cap. -/
theorem addToIndex_bucketSize (cfg : Config) (id : Nat) (cur : AList) :
    ∀ idx bl evs, (∀ p vm, lookupA idx p = some vm → vm.length ≤ cfg.maxIndexValues) →
      ∀ p vm, lookupA (addToIndex cfg id cur idx bl evs).1 p = some vm →
        vm.length ≤ cfg.maxIndexValues := by
  induction cur with
  | nil => intro idx bl evs h; exact h
  | cons pv rest ih =>
    obtain ⟨p₀, v₀⟩ := pv
    intro idx bl evs h
    unfold addToIndex
    by_cases ho : omitIndexValue cfg bl p₀ v₀ = true
    · rw [if_pos ho]
      exact ih _ _ _ h
    · rw [if_neg ho]
      by_cases hl : (bucketAdd ((lookupA idx p₀).getD []) v₀ id).length > cfg.maxIndexValues
      · rw [if_pos hl]
        refine ih _ _ _ ?_
        intro p vm hp
        by_cases hp₀ : p = p₀
        · subst hp₀
          rw [lookupA_eraseKey_self] at hp
          cases hp
        · rw [lookupA_eraseKey_ne _ _ _ hp₀] at hp
          exact h p vm hp
      · rw [if_neg hl]
        refine ih _ _ _ ?_
        intro p vm hp
        by_cases hp₀ : p = p₀
        · subst hp₀
          rw [lookupA_upsert_self] at hp
          cases hp
          omega
        · rw [lookupA_upsert_ne _ _ _ _ hp₀] at hp
          exact h p vm hp

/-- Every id in a bucket after addToIndex either was there before or is
the fresh id filed under a processed pair within the length cap. -/
theorem addToIndex_mem_pred (cfg : Config) (id : Nat)
    (P : GoStr → GoStr → Nat → Prop) (cur : AList) :
    ∀ idx bl evs,
      (∀ p v i, idInBucket idx p v i → P p v i) →
      (∀ pv ∈ cur, goLen pv.2 ≤ cfg.maxIndexValueLength → P pv.1 pv.2 id) →
      ∀ p v i, idInBucket (addToIndex cfg id cur idx bl evs).1 p v i → P p v i := by
  induction cur with
  | nil => intro idx bl evs hold _ p v i h; exact hold p v i h
  | cons pv rest ih =>
    obtain ⟨p₀, v₀⟩ := pv
    intro idx bl evs hold hnew p v i h
    unfold addToIndex at h
    by_cases ho : omitIndexValue cfg bl p₀ v₀ = true
    · rw [if_pos ho] at h
      exact ih _ _ _ hold (fun pv hm => hnew pv (List.mem_cons_of_mem _ hm)) p v i h
    · rw [if_neg ho] at h
      obtain ⟨hne, hlen, hnb⟩ := omitIndexValue_eq_false (Bool.eq_false_iff.mpr ho)
      by_cases hl : (bucketAdd ((lookupA idx p₀).getD []) v₀ id).length > cfg.maxIndexValues
      · rw [if_pos hl] at h
        refine ih _ _ _ ?_ (fun pv hm => hnew pv (List.mem_cons_of_mem _ hm)) p v i h
        intro q w j hj
        obtain ⟨ids, hids, hjm⟩ := hj
        by_cases hq₀ : q = p₀
        · subst hq₀
          rw [bucketGet_eraseKey_self] at hids
          cases hids
        · rw [bucketGet_eraseKey_ne _ _ _ _ hq₀] at hids
          exact hold q w j ⟨ids, hids, hjm⟩
      · rw [if_neg hl] at h
        refine ih _ _ _ ?_ (fun pv hm => hnew pv (List.mem_cons_of_mem _ hm)) p v i h
        intro q w j hj
        obtain ⟨ids, hids, hjm⟩ := hj
        by_cases hq₀ : q = p₀
        · subst hq₀
          rw [bucketGet_upsert_self] at hids
          by_cases hw₀ : w = v₀
          · subst hw₀
            rw [lookupA_bucketAdd_self] at hids
            cases hids
            rcases List.mem_append.mp hjm with hjm | hjm
            · cases hx : lookupA idx q with
              | none =>
                rw [hx] at hjm
                simp [lookupA] at hjm
              | some vm₀ =>
                rw [hx] at hjm
                simp only [Option.getD_some] at hjm
                cases hy : lookupA vm₀ w with
                | none =>
                  rw [hy] at hjm
                  simp at hjm
                | some ids₀ =>
                  rw [hy] at hjm
                  simp only [Option.getD_some] at hjm
                  exact hold q w j ⟨ids₀, by unfold bucketGet; rw [hx]; exact hy, hjm⟩
            · simp only [List.mem_singleton] at hjm
              subst hjm
              exact hnew (q, w) (List.mem_cons_self _ _) hlen
          · rw [lookupA_bucketAdd_ne _ _ _ _ hw₀] at hids
            cases hx : lookupA idx q with
            | none =>
              rw [hx] at hids
              simp [lookupA] at hids
            | some vm₀ =>
              rw [hx] at hids
              simp only [Option.getD_some] at hids
              exact hold q w j ⟨ids, by unfold bucketGet; rw [hx]; exact hids, hjm⟩
        · rw [bucketGet_upsert_ne _ _ _ _ _ hq₀] at hids
          exact hold q w j ⟨ids, hids, hjm⟩

/-- addToIndex keeps every bucket's id list duplicate-free, provided the
fresh id is absent from the buckets of the keys still to process. -/
theorem addToIndex_idsNodup (cfg : Config) (id : Nat) (cur : AList) :
    ∀ idx bl evs, KeysNodup cur →
      (∀ p v ids, bucketGet idx p v = some ids → ids.Nodup) →
      (∀ p v ids, p ∈ keysOf cur → bucketGet idx p v = some ids → id ∉ ids) →
      ∀ p v ids, bucketGet (addToIndex cfg id cur idx bl evs).1 p v = some ids →
        ids.Nodup := by
  induction cur with
  | nil => intro idx bl evs _ hnd _ p v ids h; exact hnd p v ids h
  | cons pv rest ih =>
    obtain ⟨p₀, v₀⟩ := pv
    intro idx bl evs hcur hnd hfree p v ids h
    have hcur' : KeysNodup rest := by
      unfold KeysNodup keysOf at hcur ⊢
      exact (List.nodup_cons.mp hcur).2
    have hp₀r : p₀ ∉ keysOf rest := by
      unfold KeysNodup keysOf at hcur
      exact (List.nodup_cons.mp hcur).1
    have hfree' : ∀ p v ids, p ∈ keysOf rest → bucketGet idx p v = some ids →
        id ∉ ids := fun p v ids hm => hfree p v ids (by
      simp only [keysOf, List.map_cons, List.mem_cons]
      exact Or.inr hm)
    unfold addToIndex at h
    by_cases ho : omitIndexValue cfg bl p₀ v₀ = true
    · rw [if_pos ho] at h
      exact ih _ _ _ hcur' hnd hfree' p v ids h
    · rw [if_neg ho] at h
      by_cases hl : (bucketAdd ((lookupA idx p₀).getD []) v₀ id).length > cfg.maxIndexValues
      · rw [if_pos hl] at h
        refine ih _ _ _ hcur' ?_ ?_ p v ids h
        · intro q w jds hq
          by_cases hq₀ : q = p₀
          · subst hq₀
            rw [bucketGet_eraseKey_self] at hq
            cases hq
          · rw [bucketGet_eraseKey_ne _ _ _ _ hq₀] at hq
            exact hnd q w jds hq
        · intro q w jds hqm hq
          by_cases hq₀ : q = p₀
          · subst hq₀
            rw [bucketGet_eraseKey_self] at hq
            cases hq
          · rw [bucketGet_eraseKey_ne _ _ _ _ hq₀] at hq
            exact hfree' q w jds hqm hq
      · rw [if_neg hl] at h
        refine ih _ _ _ hcur' ?_ ?_ p v ids h
        · intro q w jds hq
          by_cases hq₀ : q = p₀
          · subst hq₀
            rw [bucketGet_upsert_self] at hq
            by_cases hw₀ : w = v₀
            · subst hw₀
              rw [lookupA_bucketAdd_self] at hq
              cases hq
              cases hx : lookupA idx q with
              | none =>
                simp [lookupA]
              | some vm₀ =>
                simp only [Option.getD_some]
                cases hy : lookupA vm₀ w with
                | none =>
                  simp
                | some ids₀ =>
                  simp only [Option.getD_some]
                  have hids₀ : bucketGet idx q w = some ids₀ := by
                    unfold bucketGet
                    rw [hx]
                    exact hy
                  have h1 := hnd q w ids₀ hids₀
                  have h2 := hfree q w ids₀ (by
                    simp [keysOf, List.map_cons, List.mem_cons]) hids₀
                  simp only [List.nodup_append, List.nodup_cons]
                  refine ⟨h1, by simp, ?_⟩
                  intro a ha hb
                  simp only [List.mem_singleton] at hb
                  subst hb
                  exact h2 ha
            · rw [lookupA_bucketAdd_ne _ _ _ _ hw₀] at hq
              cases hx : lookupA idx q with
              | none =>
                rw [hx] at hq
                simp [lookupA] at hq
              | some vm₀ =>
                rw [hx] at hq
                simp only [Option.getD_some] at hq
                exact hnd q w jds (by unfold bucketGet; rw [hx]; exact hq)
          · rw [bucketGet_upsert_ne _ _ _ _ _ hq₀] at hq
            exact hnd q w jds hq
        · intro q w jds hqm hq
          have hq₀ : q ≠ p₀ := fun he => hp₀r (he ▸ hqm)
          rw [bucketGet_upsert_ne _ _ _ _ _ hq₀] at hq
          exact hfree' q w jds hqm hq

/-- removeBucket when the value is absent. -/
theorem removeBucket_none {eid : Nat} {v : GoStr} {vm : List (GoStr × List Nat)}
    (h : lookupA vm v = none) : removeBucket eid v vm = vm := by
  unfold removeBucket
  rw [h]

/-- removeBucket when filtering empties the id list. -/
theorem removeBucket_some_nil {eid : Nat} {v : GoStr} {vm : List (GoStr × List Nat)}
    {ids : List Nat} (h : lookupA vm v = some ids)
    (hf : ids.filter (fun i => i ≠ eid) = []) :
    removeBucket eid v vm = eraseKey v vm := by
  unfold removeBucket
  rw [h]
  exact if_pos hf

/-- removeBucket when filtered ids remain. -/
theorem removeBucket_some_cons {eid : Nat} {v : GoStr} {vm : List (GoStr × List Nat)}
    {ids : List Nat} (h : lookupA vm v = some ids)
    (hf : ¬ids.filter (fun i => i ≠ eid) = []) :
    removeBucket eid v vm = upsert v (ids.filter fun i => i ≠ eid) vm := by
  unfold removeBucket
  rw [h]
  exact if_neg hf

/-- The removeFromIndex step skips over-length values. -/
theorem removeFromIndex_cons_skip {cfg : Config} {eid : Nat} {p₀ v₀ : GoStr}
    {rest : AList} {idx : Index} (h : goLen v₀ > cfg.maxIndexValueLength) :
    removeFromIndex cfg eid ((p₀, v₀) :: rest) idx =
      removeFromIndex cfg eid rest idx := by
  simp only [removeFromIndex]
  rw [if_pos (by simpa using h)]

/-- The removeFromIndex step skips properties without a bucket. -/
theorem removeFromIndex_cons_none {cfg : Config} {eid : Nat} {p₀ v₀ : GoStr}
    {rest : AList} {idx : Index} (hlen : ¬goLen v₀ > cfg.maxIndexValueLength)
    (hx : lookupA idx p₀ = none) :
    removeFromIndex cfg eid ((p₀, v₀) :: rest) idx =
      removeFromIndex cfg eid rest idx := by
  simp only [removeFromIndex]
  rw [if_neg (by simpa using hlen), hx]

/-- The removeFromIndex step rewrites one property's bucket. -/
theorem removeFromIndex_cons_some {cfg : Config} {eid : Nat} {p₀ v₀ : GoStr}
    {rest : AList} {idx : Index} {valMap : List (GoStr × List Nat)}
    (hlen : ¬goLen v₀ > cfg.maxIndexValueLength)
    (hx : lookupA idx p₀ = some valMap) :
    removeFromIndex cfg eid ((p₀, v₀) :: rest) idx =
      removeFromIndex cfg eid rest
        (if removeBucket eid v₀ valMap = [] then eraseKey p₀ idx
         else upsert p₀ (removeBucket eid v₀ valMap) idx) := by
  simp only [removeFromIndex]
  rw [if_neg (by simpa using hlen), hx]

/-- removeBucket never grows a value's id list. -/
theorem removeBucket_shrink (eid : Nat) (v : GoStr) (vm : List (GoStr × List Nat))
    (w : GoStr) (ids' : List Nat) (h : lookupA (removeBucket eid v vm) w = some ids') :
    ∃ ids, lookupA vm w = some ids ∧ ids'.Sublist ids := by
  cases hv : lookupA vm v with
  | none =>
    rw [removeBucket_none hv] at h
    exact ⟨ids', h, List.Sublist.refl _⟩
  | some ids =>
    by_cases hf : ids.filter (fun i => i ≠ eid) = []
    · rw [removeBucket_some_nil hv hf] at h
      by_cases hw : w = v
      · subst hw
        rw [lookupA_eraseKey_self] at h
        cases h
      · rw [lookupA_eraseKey_ne _ _ _ hw] at h
        exact ⟨ids', h, List.Sublist.refl _⟩
    · rw [removeBucket_some_cons hv hf] at h
      by_cases hw : w = v
      · subst hw
        rw [lookupA_upsert_self] at h
        cases h
        exact ⟨ids, hv, List.filter_sublist ids⟩
      · rw [lookupA_upsert_ne _ _ _ _ hw] at h
        exact ⟨ids', h, List.Sublist.refl _⟩

/-- removeBucket leaves other values' lists unchanged. -/
theorem removeBucket_ne (eid : Nat) (v w : GoStr) (vm : List (GoStr × List Nat))
    (h : w ≠ v) : lookupA (removeBucket eid v vm) w = lookupA vm w := by
  cases hv : lookupA vm v with
  | none => rw [removeBucket_none hv]
  | some ids =>
    by_cases hf : ids.filter (fun i => i ≠ eid) = []
    · rw [removeBucket_some_nil hv hf, lookupA_eraseKey_ne _ _ _ h]
    · rw [removeBucket_some_cons hv hf, lookupA_upsert_ne _ _ _ _ h]

/-- After removeBucket the removed id is gone from the value's list. -/
theorem removeBucket_complete (eid : Nat) (v : GoStr) (vm : List (GoStr × List Nat))
    (ids' : List Nat) (h : lookupA (removeBucket eid v vm) v = some ids') :
    eid ∉ ids' := by
  cases hv : lookupA vm v with
  | none =>
    rw [removeBucket_none hv, hv] at h
    cases h
  | some ids =>
    by_cases hf : ids.filter (fun i => i ≠ eid) = []
    · rw [removeBucket_some_nil hv hf, lookupA_eraseKey_self] at h
      cases h
    · rw [removeBucket_some_cons hv hf, lookupA_upsert_self] at h
      cases h
      intro hm
      have := List.mem_filter.mp hm
      simp at this

/-- removeBucket preserves key uniqueness. -/
theorem removeBucket_keysNodup (eid : Nat) (v : GoStr) {vm : List (GoStr × List Nat)}
    (h : KeysNodup vm) : KeysNodup (removeBucket eid v vm) := by
  cases hv : lookupA vm v with
  | none => rw [removeBucket_none hv]; exact h
  | some ids =>
    by_cases hf : ids.filter (fun i => i ≠ eid) = []
    · rw [removeBucket_some_nil hv hf]
      exact keysNodup_eraseKey _ h
    · rw [removeBucket_some_cons hv hf]
      exact keysNodup_upsert _ _ h

/-- removeBucket never grows the value map. -/
theorem removeBucket_length (eid : Nat) (v : GoStr) (vm : List (GoStr × List Nat)) :
    (removeBucket eid v vm).length ≤ vm.length := by
  cases hv : lookupA vm v with
  | none => rw [removeBucket_none hv]
  | some ids =>
    by_cases hf : ids.filter (fun i => i ≠ eid) = []
    · rw [removeBucket_some_nil hv hf]
      exact (eraseKey_sublist v vm).length_le
    · rw [removeBucket_some_cons hv hf]
      have hmem : v ∈ keysOf vm := by
        by_contra hv'
        rw [(lookupA_eq_none_iff vm v).mpr hv'] at hv
        cases hv
      rw [length_upsert_mem _ _ hmem]

/-- removeFromIndex never grows a bucket. -/
theorem removeFromIndex_shrink (cfg : Config) (eid : Nat) (flat : AList) :
    ∀ idx p v ids', bucketGet (removeFromIndex cfg eid flat idx) p v = some ids' →
      ∃ ids, bucketGet idx p v = some ids ∧ ids'.Sublist ids := by
  induction flat with
  | nil => intro idx p v ids' h; exact ⟨ids', h, List.Sublist.refl _⟩
  | cons pv rest ih =>
    obtain ⟨p₀, v₀⟩ := pv
    intro idx p v ids' h
    by_cases hlen : goLen v₀ > cfg.maxIndexValueLength
    · rw [removeFromIndex_cons_skip hlen] at h
      exact ih idx p v ids' h
    · cases hx : lookupA idx p₀ with
      | none =>
        rw [removeFromIndex_cons_none hlen hx] at h
        exact ih idx p v ids' h
      | some valMap =>
        rw [removeFromIndex_cons_some hlen hx] at h
        obtain ⟨ids₁, hids₁, hsub₁⟩ := ih _ p v ids' h
        by_cases hq₀ : p = p₀
        · subst hq₀
          by_cases hrb : removeBucket eid v₀ valMap = []
          · rw [if_pos hrb, bucketGet_eraseKey_self] at hids₁
            cases hids₁
          · rw [if_neg hrb, bucketGet_upsert_self] at hids₁
            obtain ⟨ids₂, hids₂, hsub₂⟩ := removeBucket_shrink eid v₀ valMap v ids₁ hids₁
            refine ⟨ids₂, ?_, hsub₁.trans hsub₂⟩
            unfold bucketGet
            rw [hx]
            exact hids₂
        · refine ⟨ids₁, ?_, hsub₁⟩
          by_cases hrb : removeBucket eid v₀ valMap = []
          · rw [if_pos hrb, bucketGet_eraseKey_ne _ _ _ _ hq₀] at hids₁
            exact hids₁
          · rw [if_neg hrb, bucketGet_upsert_ne _ _ _ _ _ hq₀] at hids₁
            exact hids₁

/-- removeFromIndex preserves key uniqueness of the index. -/
theorem removeFromIndex_keysNodup (cfg : Config) (eid : Nat) (flat : AList) :
    ∀ idx, KeysNodup idx → KeysNodup (removeFromIndex cfg eid flat idx) := by
  induction flat with
  | nil => intro idx h; exact h
  | cons pv rest ih =>
    obtain ⟨p₀, v₀⟩ := pv
    intro idx h
    by_cases hlen : goLen v₀ > cfg.maxIndexValueLength
    · rw [removeFromIndex_cons_skip hlen]
      exact ih idx h
    · cases hx : lookupA idx p₀ with
      | none =>
        rw [removeFromIndex_cons_none hlen hx]
        exact ih idx h
      | some valMap =>
        rw [removeFromIndex_cons_some hlen hx]
        apply ih
        by_cases hrb : removeBucket eid v₀ valMap = []
        · rw [if_pos hrb]
          exact keysNodup_eraseKey _ h
        · rw [if_neg hrb]
          exact keysNodup_upsert _ _ h

/-- removeFromIndex preserves key uniqueness of every bucket. -/
theorem removeFromIndex_bucketNodup (cfg : Config) (eid : Nat) (flat : AList) :
    ∀ idx, (∀ p vm, lookupA idx p = some vm → KeysNodup vm) →
      ∀ p vm, lookupA (removeFromIndex cfg eid flat idx) p = some vm → KeysNodup vm := by
  induction flat with
  | nil => intro idx h; exact h
  | cons pv rest ih =>
    obtain ⟨p₀, v₀⟩ := pv
    intro idx h
    by_cases hlen : goLen v₀ > cfg.maxIndexValueLength
    · rw [removeFromIndex_cons_skip hlen]
      exact ih idx h
    · cases hx : lookupA idx p₀ with
      | none =>
        rw [removeFromIndex_cons_none hlen hx]
        exact ih idx h
      | some valMap =>
        rw [removeFromIndex_cons_some hlen hx]
        apply ih
        intro p vm hp
        by_cases hq₀ : p = p₀
        · subst hq₀
          by_cases hrb : removeBucket eid v₀ valMap = []
          · rw [if_pos hrb, lookupA_eraseKey_self] at hp
            cases hp
          · rw [if_neg hrb, lookupA_upsert_self] at hp
            cases hp
            exact removeBucket_keysNodup _ _ (h p valMap hx)
        · by_cases hrb : removeBucket eid v₀ valMap = []
          · rw [if_pos hrb, lookupA_eraseKey_ne _ _ _ hq₀] at hp
            exact h p vm hp
          · rw [if_neg hrb, lookupA_upsert_ne _ _ _ _ hq₀] at hp
            exact h p vm hp

/-- removeFromIndex keeps every bucket within the cardinality cap. -/
theorem removeFromIndex_bucketSize (cfg : Config) (eid : Nat) (flat : AList) :
    ∀ idx, (∀ p vm, lookupA idx p = some vm → vm.length ≤ cfg.maxIndexValues) →
      ∀ p vm, lookupA (removeFromIndex cfg eid flat idx) p = some vm →
        vm.length ≤ cfg.maxIndexValues := by
  induction flat with
  | nil => intro idx h; exact h
  | cons pv rest ih =>
    obtain ⟨p₀, v₀⟩ := pv
    intro idx h
    by_cases hlen : goLen v₀ > cfg.maxIndexValueLength
    · rw [removeFromIndex_cons_skip hlen]
      exact ih idx h
    · cases hx : lookupA idx p₀ with
      | none =>
        rw [removeFromIndex_cons_none hlen hx]
        exact ih idx h
      | some valMap =>
        rw [removeFromIndex_cons_some hlen hx]
        apply ih
        intro p vm hp
        by_cases hq₀ : p = p₀
        · subst hq₀
          by_cases hrb : removeBucket eid v₀ valMap = []
          · rw [if_pos hrb, lookupA_eraseKey_self] at hp
            cases hp
          · rw [if_neg hrb, lookupA_upsert_self] at hp
            cases hp
            exact (removeBucket_length _ _ _).trans (h p valMap hx)
        · by_cases hrb : removeBucket eid v₀ valMap = []
          · rw [if_pos hrb, lookupA_eraseKey_ne _ _ _ hq₀] at hp
            exact h p vm hp
          · rw [if_neg hrb, lookupA_upsert_ne _ _ _ _ hq₀] at hp
            exact h p vm hp

/-- removeFromIndex never resurrects a missing property bucket. -/
theorem removeFromIndex_none (cfg : Config) (eid : Nat) (flat : AList) :
    ∀ idx p, lookupA idx p = none →
      lookupA (removeFromIndex cfg eid flat idx) p = none := by
  induction flat with
  | nil => intro idx p h; exact h
  | cons pv rest ih =>
    obtain ⟨p₀, v₀⟩ := pv
    intro idx p h
    by_cases hlen : goLen v₀ > cfg.maxIndexValueLength
    · rw [removeFromIndex_cons_skip hlen]
      exact ih idx p h
    · cases hx : lookupA idx p₀ with
      | none =>
        rw [removeFromIndex_cons_none hlen hx]
        exact ih idx p h
      | some valMap =>
        rw [removeFromIndex_cons_some hlen hx]
        apply ih
        have hq₀ : p ≠ p₀ := by
          intro he
          rw [he, hx] at h
          cases h
        by_cases hrb : removeBucket eid v₀ valMap = []
        · rw [if_pos hrb, lookupA_eraseKey_ne _ _ _ hq₀]
          exact h
        · rw [if_neg hrb, lookupA_upsert_ne _ _ _ _ hq₀]
          exact h

/-- After removeFromIndex with the entry's own flat view, the entry id
is gone from every bucket: every bucket holding it names a flat pair
within the length cap, and that pair's processing removes it. -/
theorem removeFromIndex_complete (cfg : Config) (eid : Nat) (flat : AList) :
    ∀ idx,
      (∀ p v, idInBucket idx p v eid →
        lookupA flat p = some v ∧ goLen v ≤ cfg.maxIndexValueLength) →
      ∀ p v, ¬idInBucket (removeFromIndex cfg eid flat idx) p v eid := by
  induction flat with
  | nil =>
    intro idx h p v hmem
    obtain ⟨hl, _⟩ := h p v hmem
    cases hl
  | cons pv rest ih =>
    obtain ⟨p₀, v₀⟩ := pv
    intro idx h p v hmem
    by_cases hlen : goLen v₀ > cfg.maxIndexValueLength
    · rw [removeFromIndex_cons_skip hlen] at hmem
      refine ih idx ?_ p v hmem
      intro q w hq
      obtain ⟨hl, hw⟩ := h q w hq
      by_cases hq₀ : q = p₀
      · subst hq₀
        simp only [lookupA, if_pos rfl] at hl
        cases hl
        omega
      · simp only [lookupA, if_neg (Ne.symm hq₀)] at hl
        exact ⟨hl, hw⟩
    · cases hx : lookupA idx p₀ with
      | none =>
        rw [removeFromIndex_cons_none hlen hx] at hmem
        refine ih idx ?_ p v hmem
        intro q w hq
        obtain ⟨hl, hw⟩ := h q w hq
        by_cases hq₀ : q = p₀
        · subst hq₀
          obtain ⟨ids, hids, _⟩ := hq
          unfold bucketGet at hids
          rw [hx] at hids
          cases hids
        · simp only [lookupA, if_neg (Ne.symm hq₀)] at hl
          exact ⟨hl, hw⟩
      | some valMap =>
        rw [removeFromIndex_cons_some hlen hx] at hmem
        refine ih _ ?_ p v hmem
        intro q w hq
        by_cases hq₀ : q = p₀
        · subst hq₀
          by_cases hrb : removeBucket eid v₀ valMap = []
          · rw [if_pos hrb] at hq
            obtain ⟨ids, hids, _⟩ := hq
            rw [bucketGet_eraseKey_self] at hids
            cases hids
          · rw [if_neg hrb] at hq
            obtain ⟨ids, hids, hm⟩ := hq
            rw [bucketGet_upsert_self] at hids
            by_cases hw₀ : w = v₀
            · subst hw₀
              exact absurd hm (removeBucket_complete eid w valMap ids hids)
            · rw [removeBucket_ne eid v₀ w valMap hw₀] at hids
              have hq' : idInBucket idx q w eid :=
                ⟨ids, by unfold bucketGet; rw [hx]; exact hids, hm⟩
              obtain ⟨hl, _⟩ := h q w hq'
              simp only [lookupA, if_pos rfl] at hl
              cases hl
              exact absurd rfl hw₀
        · have hq' : idInBucket idx q w eid := by
            by_cases hrb : removeBucket eid v₀ valMap = []
            · obtain ⟨ids, hids, hm⟩ := hq
              rw [if_pos hrb, bucketGet_eraseKey_ne _ _ _ _ hq₀] at hids
              exact ⟨ids, hids, hm⟩
            · obtain ⟨ids, hids, hm⟩ := hq
              rw [if_neg hrb, bucketGet_upsert_ne _ _ _ _ _ hq₀] at hids
              exact ⟨ids, hids, hm⟩
          obtain ⟨hl, hw⟩ := h q w hq'
          simp only [lookupA, if_neg (Ne.symm hq₀)] at hl
          exact ⟨hl, hw⟩

/-- Writing a fresh key appends one entry. -/
theorem length_upsert_not_mem {κ β : Type} [DecidableEq κ] (k : κ) (v : β)
    {m : List (κ × β)} (h : k ∉ keysOf m) :
    (upsert k v m).length = m.length + 1 := by
  induction m with
  | nil => rfl
  | cons kv rest ih =>
    obtain ⟨k', v'⟩ := kv
    simp only [keysOf, List.map_cons, List.mem_cons] at h
    push_neg at h
    unfold upsert
    rw [if_neg (fun he => h.1 he.symm), List.length_cons, List.length_cons, ih h.2]

/-- enforceMaxLogs under capacity is the identity. -/
theorem enforceMaxLogs_under {cfg : Config} {st : LMState}
    (hover : ¬st.logOrder.length > cfg.maxLogs) : enforceMaxLogs cfg st = st := by
  unfold enforceMaxLogs
  rw [if_neg hover]

/-- enforceMaxLogs over capacity with a stored oldest entry evicts it. -/
theorem enforceMaxLogs_over {cfg : Config} {st : LMState} {oldest : Nat}
    {restOrder : List Nat} {rawOld : JObj}
    (hover : st.logOrder.length > cfg.maxLogs)
    (horder : st.logOrder = oldest :: restOrder)
    (hx : lookupA st.logStore oldest = some rawOld) :
    enforceMaxLogs cfg st =
      { st with
          logOrder := restOrder
          index := removeFromIndex cfg oldest (flattenMap rawOld) st.index
          logStore := eraseKey oldest st.logStore } := by
  unfold enforceMaxLogs
  rw [if_pos hover, horder]
  simp only [hx]

/-- enforceMaxLogs over capacity with a missing oldest entry only drops
it from the order. -/
theorem enforceMaxLogs_over_none {cfg : Config} {st : LMState} {oldest : Nat}
    {restOrder : List Nat}
    (hover : st.logOrder.length > cfg.maxLogs)
    (horder : st.logOrder = oldest :: restOrder)
    (hx : lookupA st.logStore oldest = none) :
    enforceMaxLogs cfg st = { st with logOrder := restOrder } := by
  unfold enforceMaxLogs
  rw [if_pos hover, horder]
  simp only [hx]

/-- enforceMaxLogs never touches the blacklist. -/
theorem enforceMaxLogs_blacklist (cfg : Config) (st : LMState) :
    (enforceMaxLogs cfg st).blacklist = st.blacklist := by
  by_cases hover : st.logOrder.length > cfg.maxLogs
  · cases horder : st.logOrder with
    | nil =>
      rw [horder] at hover
      simp at hover
    | cons oldest restOrder =>
      cases hx : lookupA st.logStore oldest with
      | none => rw [enforceMaxLogs_over_none hover horder hx]
      | some rawOld => rw [enforceMaxLogs_over hover horder hx]
  · rw [enforceMaxLogs_under hover]

/-- enforceMaxLogs never touches the id counter. -/
theorem enforceMaxLogs_idCounter (cfg : Config) (st : LMState) :
    (enforceMaxLogs cfg st).idCounter = st.idCounter := by
  by_cases hover : st.logOrder.length > cfg.maxLogs
  · cases horder : st.logOrder with
    | nil =>
      rw [horder] at hover
      simp at hover
    | cons oldest restOrder =>
      cases hx : lookupA st.logStore oldest with
      | none => rw [enforceMaxLogs_over_none hover horder hx]
      | some rawOld => rw [enforceMaxLogs_over hover horder hx]
  · rw [enforceMaxLogs_under hover]

/-- The empty LogManager satisfies the invariants. -/
theorem LMInv_new (cfg : Config) : LMInv cfg NewLogManager := by
  refine ⟨?_, ?_, ?_, ?_, ?_, ?_, ?_, ?_, ?_, ?_, ?_, ?_⟩
  · exact List.nodup_nil
  · exact List.nodup_nil
  · intro id
    simp [NewLogManager, lookupA]
  · rfl
  · simp [NewLogManager]
  · intro id h
    simp [NewLogManager] at h
  · exact List.nodup_nil
  · intro p vm h
    simp [NewLogManager, lookupA] at h
  · intro p vm h
    simp [NewLogManager, lookupA] at h
  · intro p v ids h
    simp [NewLogManager, bucketGet, lookupA] at h
  · intro p v i h
    obtain ⟨ids, hids, _⟩ := h
    simp [NewLogManager, bucketGet, lookupA] at hids
  · intro p h
    simp [NewLogManager] at h

/-- enforceMaxLogs restores the capacity bound and keeps the other
invariants, starting from a state at most one over capacity. -/
theorem LMInv_enforceMaxLogs (cfg : Config) (st : LMState)
    (ho : st.logOrder.Nodup) (hsn : KeysNodup st.logStore)
    (hsk : ∀ id, (lookupA st.logStore id).isSome = true ↔ id ∈ st.logOrder)
    (hsl : st.logStore.length = st.logOrder.length)
    (hle : st.logOrder.length ≤ cfg.maxLogs + 1)
    (hib : ∀ id ∈ st.logOrder, id ≤ st.idCounter)
    (hxn : KeysNodup st.index)
    (hbn : ∀ p vm, lookupA st.index p = some vm → KeysNodup vm)
    (hbs : ∀ p vm, lookupA st.index p = some vm → vm.length ≤ cfg.maxIndexValues)
    (hin : ∀ p v ids, bucketGet st.index p v = some ids → ids.Nodup)
    (him : ∀ p v i, idInBucket st.index p v i →
      i ∈ st.logOrder ∧
      (∀ raw, lookupA st.logStore i = some raw → lookupA (flattenMap raw) p = some v) ∧
      goLen v ≤ cfg.maxIndexValueLength)
    (hbl : ∀ p ∈ st.blacklist, lookupA st.index p = none) :
    LMInv cfg (enforceMaxLogs cfg st) := by
  by_cases hover : st.logOrder.length > cfg.maxLogs
  · cases horder : st.logOrder with
    | nil =>
      rw [horder] at hover
      simp at hover
    | cons oldest restOrder =>
      have hmem : oldest ∈ st.logOrder := by
        rw [horder]
        exact List.mem_cons_self _ _
      have hsome : (lookupA st.logStore oldest).isSome = true := (hsk oldest).mpr hmem
      cases hx : lookupA st.logStore oldest with
      | none =>
        rw [hx] at hsome
        cases hsome
      | some rawOld =>
        rw [enforceMaxLogs_over hover horder hx]
        have hoc : (oldest :: restOrder).Nodup := horder ▸ ho
        have hnotin : oldest ∉ restOrder := (List.nodup_cons.mp hoc).1
        have hrest : restOrder.Nodup := (List.nodup_cons.mp hoc).2
        have hkeys : oldest ∈ keysOf st.logStore := by
          by_contra hk
          rw [(lookupA_eq_none_iff _ _).mpr hk] at hx
          cases hx
        have hcomp : ∀ p v,
            ¬idInBucket (removeFromIndex cfg oldest (flattenMap rawOld) st.index) p v
              oldest := by
          apply removeFromIndex_complete
          intro p v hq
          obtain ⟨_, hstore, hlen⟩ := him p v oldest hq
          exact ⟨hstore rawOld hx, hlen⟩
        refine ⟨hrest, keysNodup_eraseKey _ hsn, ?_, ?_, ?_, ?_, ?_, ?_, ?_, ?_, ?_, ?_⟩
        · intro i
          by_cases hi : i = oldest
          · subst hi
            simp only [lookupA_eraseKey_self, Option.isSome_none]
            constructor
            · intro hf
              cases hf
            · intro hf
              exact absurd hf hnotin
          · rw [show ({ st with
                logOrder := restOrder
                index := removeFromIndex cfg oldest (flattenMap rawOld) st.index
                logStore := eraseKey oldest st.logStore } : LMState).logStore =
              eraseKey oldest st.logStore from rfl]
            rw [lookupA_eraseKey_ne _ _ _ hi, hsk i, horder]
            simp only [List.mem_cons]
            constructor
            · rintro (he | hr)
              · exact absurd he hi
              · exact hr
            · exact Or.inr
        · have h1 := length_eraseKey hsn hkeys
          have h2 : st.logOrder.length = restOrder.length + 1 := by
            rw [horder]
            rfl
          simp only []
          omega
        · have h2 : st.logOrder.length = restOrder.length + 1 := by
            rw [horder]
            rfl
          simp only []
          omega
        · intro i hi
          exact hib i (by rw [horder]; exact List.mem_cons_of_mem _ hi)
        · exact removeFromIndex_keysNodup cfg oldest _ _ hxn
        · exact removeFromIndex_bucketNodup cfg oldest _ _ hbn
        · exact removeFromIndex_bucketSize cfg oldest _ _ hbs
        · intro p v ids hids
          obtain ⟨ids₀, hids₀, hsub⟩ := removeFromIndex_shrink cfg oldest _ _ p v ids hids
          exact hsub.nodup (hin p v ids₀ hids₀)
        · intro p v i hq
          have hio : i ≠ oldest := by
            intro he
            subst he
            exact hcomp p v hq
          obtain ⟨ids, hids, hm⟩ := hq
          obtain ⟨ids₀, hids₀, hsub⟩ := removeFromIndex_shrink cfg oldest _ _ p v ids hids
          obtain ⟨hmem', hstore, hlen⟩ := him p v i ⟨ids₀, hids₀, hsub.mem hm⟩
          refine ⟨?_, ?_, hlen⟩
          · rw [horder] at hmem'
            rcases List.mem_cons.mp hmem' with he | hr
            · exact absurd he hio
            · exact hr
          · intro raw hraw
            rw [show ({ st with
                  logOrder := restOrder
                  index := removeFromIndex cfg oldest (flattenMap rawOld) st.index
                  logStore := eraseKey oldest st.logStore } : LMState).logStore =
                eraseKey oldest st.logStore from rfl,
              lookupA_eraseKey_ne _ _ _ hio] at hraw
            exact hstore raw hraw
        · intro p hp
          exact removeFromIndex_none cfg oldest _ _ p (hbl p hp)
  · rw [enforceMaxLogs_under hover]
    exact ⟨ho, hsn, hsk, hsl, by omega, hib, hxn, hbn, hbs, hin, him, hbl⟩

/-- AddLogEntry preserves the invariants. -/
theorem LMInv_AddLogEntry (cfg : Config) (st : LMState) (raw : JObj)
    (h : LMInv cfg st) : LMInv cfg (AddLogEntry cfg st raw).1 := by
  have hidfresh : st.idCounter + 1 ∉ st.logOrder := by
    intro hm
    have := h.idBound _ hm
    omega
  have hstorefresh : lookupA st.logStore (st.idCounter + 1) = none := by
    cases hx : lookupA st.logStore (st.idCounter + 1) with
    | none => rfl
    | some r =>
      exact absurd ((h.storeKeys _).mp (by rw [hx]; rfl)) hidfresh
  have hkeyfresh : st.idCounter + 1 ∉ keysOf st.logStore :=
    (lookupA_eq_none_iff _ _).mp hstorefresh
  show LMInv cfg (enforceMaxLogs cfg
    { logOrder := st.logOrder ++ [st.idCounter + 1]
      logStore := upsert (st.idCounter + 1) raw st.logStore
      index := (addToIndex cfg (st.idCounter + 1) (flattenMap raw)
        st.index st.blacklist []).1
      blacklist := (addToIndex cfg (st.idCounter + 1) (flattenMap raw)
        st.index st.blacklist []).2.1
      idCounter := st.idCounter + 1 })
  apply LMInv_enforceMaxLogs
  · simp only []
    rw [List.nodup_append]
    refine ⟨h.orderNodup, List.nodup_singleton _, ?_⟩
    intro a ha hb
    simp only [List.mem_singleton] at hb
    subst hb
    exact hidfresh ha
  · exact keysNodup_upsert _ _ h.storeNodup
  · intro i
    simp only []
    by_cases hi : i = st.idCounter + 1
    · subst hi
      rw [lookupA_upsert_self]
      simp [List.mem_append]
    · rw [lookupA_upsert_ne _ _ _ _ hi, h.storeKeys i]
      simp only [List.mem_append, List.mem_singleton]
      constructor
      · exact Or.inl
      · rintro (hm | hm)
        · exact hm
        · exact absurd hm hi
  · simp only []
    rw [length_upsert_not_mem _ _ hkeyfresh, List.length_append,
      List.length_singleton, h.storeLen]
  · simp only [List.length_append, List.length_singleton]
    have := h.orderLe
    omega
  · intro i hi
    simp only [List.mem_append, List.mem_singleton] at hi
    rcases hi with hm | hm
    · have := h.idBound i hm
      simp only []
      omega
    · subst hm
      simp
  · exact addToIndex_keysNodup cfg _ _ _ _ _ h.idxNodup
  · exact addToIndex_bucketNodup cfg _ _ _ _ _ h.bucketNodup
  · exact addToIndex_bucketSize cfg _ _ _ _ _ h.bucketSize
  · apply addToIndex_idsNodup cfg (st.idCounter + 1) (flattenMap raw)
      st.index st.blacklist [] (keysNodup_flattenMap raw) h.bucketIdsNodup
    intro p v ids _ hids hm
    obtain ⟨hmem, _, _⟩ := h.bucketIdsMem p v (st.idCounter + 1) ⟨ids, hids, hm⟩
    exact hidfresh hmem
  · intro p v i hq
    refine addToIndex_mem_pred cfg (st.idCounter + 1)
      (fun p v i =>
        i ∈ st.logOrder ++ [st.idCounter + 1] ∧
        (∀ raw', lookupA (upsert (st.idCounter + 1) raw st.logStore) i = some raw' →
          lookupA (flattenMap raw') p = some v) ∧
        goLen v ≤ cfg.maxIndexValueLength)
      (flattenMap raw) st.index st.blacklist [] ?_ ?_ p v i hq
    · intro q w j hj
      obtain ⟨hmem, hstore, hlen⟩ := h.bucketIdsMem q w j hj
      have hji : j ≠ st.idCounter + 1 := by
        intro he
        subst he
        exact hidfresh hmem
      refine ⟨List.mem_append_left _ hmem, ?_, hlen⟩
      intro raw' hraw'
      rw [lookupA_upsert_ne _ _ _ _ hji] at hraw'
      exact hstore raw' hraw'
    · intro pv hpv hlen
      refine ⟨List.mem_append_right _ (List.mem_singleton.mpr rfl), ?_, hlen⟩
      intro raw' hraw'
      rw [lookupA_upsert_self] at hraw'
      cases hraw'
      exact mem_lookupA (keysNodup_flattenMap raw) hpv
  · intro p hp
    exact addToIndex_blackNoBucket cfg _ _ _ _ _ h.blackNoBucket p hp

/-- The invariants hold along any append run. -/
theorem LMInv_addAll (cfg : Config) (raws : List JObj) :
    ∀ st, LMInv cfg st → LMInv cfg (addAll cfg st raws) := by
  induction raws with
  | nil => intro st h; exact h
  | cons r rs ih =>
    intro st h
    exact ih _ (LMInv_AddLogEntry cfg st r h)

/-- addAll distributes over concatenation. -/
theorem addAll_append (cfg : Config) (xs ys : List JObj) :
    ∀ st, addAll cfg st (xs ++ ys) = addAll cfg (addAll cfg st xs) ys := by
  induction xs with
  | nil => intro st; rfl
  | cons x xs ih =>
    intro st
    exact ih (AddLogEntry cfg st x).1

/-- The blacklist of the appended state is the one addToIndex built. -/
theorem AddLogEntry_blacklist (cfg : Config) (st : LMState) (raw : JObj) :
    (AddLogEntry cfg st raw).1.blacklist =
      (addToIndex cfg (st.idCounter + 1) (flattenMap raw) st.index st.blacklist []).2.1 :=
  enforceMaxLogs_blacklist cfg _

/-- One append never removes a blacklist entry. -/
theorem AddLogEntry_blacklist_mono (cfg : Config) (st : LMState) (raw : JObj)
    (p : GoStr) (hp : p ∈ st.blacklist) : p ∈ (AddLogEntry cfg st raw).1.blacklist := by
  rw [AddLogEntry_blacklist]
  exact addToIndex_blacklist_mono cfg _ _ _ _ _ p hp

/-- No append run removes a blacklist entry. -/
theorem addAll_blacklist_mono (cfg : Config) (raws : List JObj) :
    ∀ st p, p ∈ st.blacklist → p ∈ (addAll cfg st raws).blacklist := by
  induction raws with
  | nil => intro st p hp; exact hp
  | cons r rs ih =>
    intro st p hp
    exact ih _ p (AddLogEntry_blacklist_mono cfg st r p hp)

/-- Reading the outer map of GetIndexCounts. -/
theorem lookupA_GetIndexCounts (idx : Index) (p : GoStr) :
    lookupA (GetIndexCounts idx) p =
      (lookupA idx p).map fun vm => vm.map fun vids => (vids.1, vids.2.length) := by
  unfold GetIndexCounts
  induction idx with
  | nil => rfl
  | cons pvm rest ih =>
    obtain ⟨p₀, vm₀⟩ := pvm
    simp only [List.map_cons, lookupA]
    by_cases hp : p₀ = p
    · subst hp
      simp
    · rw [if_neg hp, if_neg hp]
      exact ih

/-- Reading the inner map of GetIndexCounts. -/
theorem lookupA_map_len (vm : List (GoStr × List Nat)) (v : GoStr) :
    lookupA (vm.map fun vids => (vids.1, vids.2.length)) v =
      (lookupA vm v).map List.length :=
  lookupA_map_val (fun _ ids => ids.length) vm v

/-- A duplicate-free list inside the filtered support bounds the count. -/
theorem length_le_countP (ids L : List Nat) (pred : Nat → Bool)
    (hnd : ids.Nodup) (hsub : ∀ i ∈ ids, i ∈ L ∧ pred i = true) :
    ids.length ≤ L.countP pred := by
  have hsubset : ids.toFinset ⊆ (L.filter pred).toFinset := by
    intro a ha
    rw [List.mem_toFinset] at ha ⊢
    obtain ⟨h1, h2⟩ := hsub a ha
    exact List.mem_filter.mpr ⟨h1, h2⟩
  rw [List.countP_eq_length_filter, ← List.toFinset_card_of_nodup hnd]
  exact (Finset.card_le_card hsubset).trans (List.toFinset_card_le _)

/-- C4: the index keeps the blacklist invariant: a blacklisted property
has no bucket at any reachable state; blacklisting is one-way across
any later appends; no bucket ever exceeds maxIndexValues — the
insertion that would exceed it deletes the bucket and blacklists the
property; and a newly blacklisted property's drop notification naming
it is emitted by that append. -/
theorem claim_C4 (cfg : Config) :
    (∀ raws p, p ∈ (addAll cfg NewLogManager raws).blacklist →
      lookupA (addAll cfg NewLogManager raws).index p = none) ∧
    (∀ raws more p, p ∈ (addAll cfg NewLogManager raws).blacklist →
      p ∈ (addAll cfg NewLogManager (raws ++ more)).blacklist ∧
      lookupA (addAll cfg NewLogManager (raws ++ more)).index p = none) ∧
    (∀ raws p vm, lookupA (addAll cfg NewLogManager raws).index p = some vm →
      vm.length ≤ cfg.maxIndexValues) ∧
    (∀ (st : LMState) (raw : JObj) (p : GoStr), p ∉ st.blacklist →
      p ∈ (AddLogEntry cfg st raw).1.blacklist →
      Event.dropIndex [p] ∈ (AddLogEntry cfg st raw).2.1) := by
  refine ⟨?_, ?_, ?_, ?_⟩
  · intro raws p hp
    exact (LMInv_addAll cfg raws NewLogManager (LMInv_new cfg)).blackNoBucket p hp
  · intro raws more p hp
    have hmem : p ∈ (addAll cfg NewLogManager (raws ++ more)).blacklist := by
      rw [addAll_append]
      exact addAll_blacklist_mono cfg more _ p hp
    exact ⟨hmem,
      (LMInv_addAll cfg (raws ++ more) NewLogManager (LMInv_new cfg)).blackNoBucket p hmem⟩
  · intro raws p vm hvm
    exact (LMInv_addAll cfg raws NewLogManager (LMInv_new cfg)).bucketSize p vm hvm
  · intro st raw p hnp hp
    rw [AddLogEntry_blacklist] at hp
    rcases addToIndex_blacklist_event cfg _ _ _ _ _ p hp with hin | hev
    · exact absurd hin hnp
    · exact hev

/-- Witness for claim C4 at the spec's example: maxIndexValues = 2,
three entries with distinct level values blacklist the property and
emit the drop notification; a fourth unseen value does not resurrect
the bucket. -/
theorem claim_C4_witness :
    lookupA (addAll ⟨2, 10, 50⟩ NewLogManager
      [entryInfo, entryError, entryWarn]).index "level".toList = none ∧
    ("level".toList ∈ (addAll ⟨2, 10, 50⟩ NewLogManager
      ([entryInfo, entryError, entryWarn] ++ [entryDebug])).blacklist ∧
      lookupA (addAll ⟨2, 10, 50⟩ NewLogManager
        ([entryInfo, entryError, entryWarn] ++ [entryDebug])).index
        "level".toList = none) ∧
    Event.dropIndex ["level".toList] ∈
      (AddLogEntry ⟨2, 10, 50⟩
        (addAll ⟨2, 10, 50⟩ NewLogManager [entryInfo, entryError]) entryWarn).2.1 :=
  ⟨(claim_C4 ⟨2, 10, 50⟩).1 [entryInfo, entryError, entryWarn] "level".toList (by decide),
   (claim_C4 ⟨2, 10, 50⟩).2.1 [entryInfo, entryError, entryWarn] [entryDebug]
     "level".toList (by decide),
   (claim_C4 ⟨2, 10, 50⟩).2.2.2
     (addAll ⟨2, 10, 50⟩ NewLogManager [entryInfo, entryError]) entryWarn
     "level".toList (by decide) (by decide)⟩

/-- C9: after any sequence of appends from an empty LogManager, the
store length never exceeds maxLogs, and every per-value count returned
by GetIndexCounts is at most the number of currently retained entries
whose flat view maps the property to the value. -/
theorem claim_C9 (cfg : Config) (raws : List JObj) :
    GetLogsCount (addAll cfg NewLogManager raws) ≤ cfg.maxLogs ∧
    (∀ p pvCounts v c,
      lookupA (GetIndexCounts (addAll cfg NewLogManager raws).index) p = some pvCounts →
      lookupA pvCounts v = some c →
      c ≤ retainedCount (addAll cfg NewLogManager raws) p v) := by
  have hinv := LMInv_addAll cfg raws NewLogManager (LMInv_new cfg)
  constructor
  · unfold GetLogsCount
    rw [hinv.storeLen]
    exact hinv.orderLe
  · intro p pvCounts v c hpc hvc
    rw [lookupA_GetIndexCounts] at hpc
    cases hvm : lookupA (addAll cfg NewLogManager raws).index p with
    | none =>
      rw [hvm] at hpc
      cases hpc
    | some vm =>
      rw [hvm] at hpc
      simp only [Option.map_some'] at hpc
      cases hpc
      rw [lookupA_map_len] at hvc
      cases hids : lookupA vm v with
      | none =>
        rw [hids] at hvc
        cases hvc
      | some ids =>
        rw [hids] at hvc
        simp only [Option.map_some'] at hvc
        cases hvc
        have hbg : bucketGet (addAll cfg NewLogManager raws).index p v = some ids := by
          unfold bucketGet
          rw [hvm]
          exact hids
        have hnd := hinv.bucketIdsNodup p v ids hbg
        unfold retainedCount
        apply length_le_countP ids _ _ hnd
        intro i hi
        obtain ⟨hmem, hstore, _⟩ := hinv.bucketIdsMem p v i ⟨ids, hbg, hi⟩
        refine ⟨hmem, ?_⟩
        have hsome := (hinv.storeKeys i).mpr hmem
        cases hraw : lookupA (addAll cfg NewLogManager raws).logStore i with
        | none =>
          rw [hraw] at hsome
          cases hsome
        | some raw =>
          simp only [beq_iff_eq]
          exact hstore raw hraw

/-- Witness for claim C9 on a concrete run of two entries. -/
theorem claim_C9_witness :
    GetLogsCount (addAll ⟨10, 10, 50⟩ NewLogManager [entryInfo, entryError]) ≤ 10 ∧
    (1 : Nat) ≤ retainedCount (addAll ⟨10, 10, 50⟩ NewLogManager [entryInfo, entryError])
      "level".toList "INFO".toList :=
  ⟨(claim_C9 ⟨10, 10, 50⟩ [entryInfo, entryError]).1,
   (claim_C9 ⟨10, 10, 50⟩ [entryInfo, entryError]).2 "level".toList
     [("INFO".toList, 1), ("ERROR".toList, 1)] "INFO".toList 1
     (by decide) (by decide)⟩

/-- countsInc bumps the addressed cell by one. -/
theorem countsOpt_countsInc_self (counts : CountsMap) (p v : GoStr) :
    countsOpt (countsInc counts p v) p v = some (counts0 counts p v + 1) := by
  unfold counts0 countsInc countsOpt
  cases hp : lookupA counts p with
  | none =>
    rw [lookupA_append, hp]
    simp [lookupA]
  | some inner =>
    cases hv : lookupA inner v with
    | none =>
      simp only [hv, lookupA_upsert_self, Option.some_bind, Option.getD_none]
      rw [lookupA_append, hv]
      simp [lookupA]
    | some c =>
      simp only [hv, lookupA_upsert_self, Option.some_bind, Option.getD_some]

/-- countsInc leaves every other cell unchanged. -/
theorem countsOpt_countsInc_ne (counts : CountsMap) (p v q w : GoStr)
    (h : ¬(q = p ∧ w = v)) :
    countsOpt (countsInc counts p v) q w = countsOpt counts q w := by
  unfold countsInc countsOpt
  by_cases hqp : q = p
  · subst hqp
    have hwv : w ≠ v := fun he => h ⟨rfl, he⟩
    cases hp : lookupA counts q with
    | none =>
      rw [lookupA_append, hp]
      simp [lookupA, Ne.symm hwv]
    | some inner =>
      cases hv : lookupA inner v with
      | none =>
        simp only [hv, lookupA_upsert_self, Option.some_bind]
        rw [lookupA_append]
        cases hq : lookupA inner w with
        | none => simp [lookupA, Ne.symm hwv]
        | some c => simp
      | some c =>
        simp only [hv, lookupA_upsert_self, Option.some_bind]
        rw [lookupA_upsert_ne _ _ _ _ hwv]
  · cases hp : lookupA counts p with
    | none =>
      rw [lookupA_append]
      cases hq : lookupA counts q with
      | none => simp [lookupA, Ne.symm hqp]
      | some inner => simp
    | some inner =>
      cases hv : lookupA inner v with
      | none => simp only [hv, lookupA_upsert_ne _ _ _ _ hqp]
      | some c => simp only [hv, lookupA_upsert_ne _ _ _ _ hqp]

/-- incAll leaves a cell alone when its pair is absent or omitted. -/
theorem countsOpt_incAll_of_not_mem (cfg : Config) (bl : List GoStr) (flat : AList)
    (p v : GoStr) (h : (p, v) ∈ flat → omitIndexValue cfg bl p v = true) :
    ∀ counts, countsOpt (incAll cfg bl counts flat) p v = countsOpt counts p v := by
  induction flat with
  | nil => intro counts; rfl
  | cons pv rest ih =>
    obtain ⟨p₀, v₀⟩ := pv
    intro counts
    unfold incAll
    by_cases ho : omitIndexValue cfg bl p₀ v₀ = true
    · rw [if_pos ho]
      exact ih (fun hm => h (List.mem_cons_of_mem _ hm)) counts
    · rw [if_neg ho]
      rw [ih (fun hm => h (List.mem_cons_of_mem _ hm))]
      apply countsOpt_countsInc_ne
      rintro ⟨rfl, rfl⟩
      exact ho (h (List.mem_cons_self _ _))

/-- incAll over a flat view with unique keys bumps a cell by one exactly
when the cell's pair is present and not omitted. -/
theorem counts0_incAll (cfg : Config) (bl : List GoStr) (flat : AList)
    (hn : KeysNodup flat) (p v : GoStr) :
    ∀ counts, counts0 (incAll cfg bl counts flat) p v =
      counts0 counts p v +
        (if (p, v) ∈ flat ∧ omitIndexValue cfg bl p v = false then 1 else 0) := by
  induction flat with
  | nil => intro counts; simp [incAll]
  | cons pv rest ih =>
    obtain ⟨p₀, v₀⟩ := pv
    intro counts
    have hn' : KeysNodup rest := by
      unfold KeysNodup keysOf at hn ⊢
      exact (List.nodup_cons.mp hn).2
    have hp₀ : p₀ ∉ keysOf rest := by
      unfold KeysNodup keysOf at hn
      exact (List.nodup_cons.mp hn).1
    unfold incAll
    by_cases ho : omitIndexValue cfg bl p₀ v₀ = true
    · rw [if_pos ho, ih hn' counts]
      congr 1
      by_cases hpv : p = p₀ ∧ v = v₀
      · obtain ⟨rfl, rfl⟩ := hpv
        simp [ho]
      · have hm : ((p, v) ∈ (p₀, v₀) :: rest) ↔ ((p, v) ∈ rest) := by
          simp only [List.mem_cons]
          constructor
          · rintro (he | he)
            · exact absurd (Prod.mk.injEq .. ▸ he) (by simpa using hpv)
            · exact he
          · exact Or.inr
        simp only [hm]
    · rw [if_neg ho]
      by_cases hpv : p = p₀ ∧ v = v₀
      · obtain ⟨rfl, rfl⟩ := hpv
        have hnot : (p, v) ∈ rest → omitIndexValue cfg bl p v = true := by
          intro hm
          exact absurd (List.mem_map.mpr ⟨(p, v), hm, rfl⟩) hp₀
        unfold counts0
        rw [countsOpt_incAll_of_not_mem cfg bl rest p v hnot, countsOpt_countsInc_self]
        simp [counts0, List.mem_cons_self, Bool.eq_false_iff, ho]
      · rw [ih hn' (countsInc counts p₀ v₀)]
        unfold counts0
        rw [countsOpt_countsInc_ne _ _ _ _ _ hpv]
        congr 1
        have hm : ((p, v) ∈ (p₀, v₀) :: rest) ↔ ((p, v) ∈ rest) := by
          simp only [List.mem_cons]
          constructor
          · rintro (he | he)
            · exact absurd (Prod.mk.injEq .. ▸ he) (by simpa using hpv)
            · exact he
          · exact Or.inr
        simp only [hm]

/-- The SearchLogs scan never touches the cell of a filtered-out value:
every matching entry's flat value at a filtered property lies in the
allowed set. -/
theorem searchLoop_counts_out (cfg : Config) (st : LMState) (payload : SearchPayload)
    (maxN : Nat) (p v : GoStr) (allowed : List GoStr)
    (hf : lookupA payload.filters p = some allowed) (hv : allowed.contains v = false)
    (ids : List Nat) :
    ∀ res counts count,
      countsOpt (searchLoop cfg st payload maxN ids res counts count).2 p v =
        countsOpt counts p v := by
  induction ids with
  | nil => intro res counts count; rfl
  | cons eid rest ih =>
    intro res counts count
    unfold searchLoop
    split
    next => exact ih res counts count
    next raw hs =>
      by_cases hm : logMatches raw payload = true
      · rw [if_pos hm, ih]
        apply countsOpt_incAll_of_not_mem
        intro hmem
        exfalso
        have hl : lookupA (flattenMap raw) p = some v :=
          mem_lookupA (keysNodup_flattenMap raw) hmem
        unfold logMatches at hm
        simp only [Bool.and_eq_true] at hm
        have hfil : logMatchesFilter raw payload.filters = true := hm.1
        unfold logMatchesFilter at hfil
        have hall := List.all_eq_true.mp hfil (p, allowed) (lookupA_mem hf)
        unfold flatLookup at hall
        rw [hl] at hall
        simp only [Option.getD_some] at hall
        rw [hv] at hall
        exact Bool.false_ne_true hall
      · rw [if_neg hm]
        exact ih res counts count

/-- The SearchLogs scan adds to a cell the number of matching entries
carrying that non-omitted pair. -/
theorem searchLoop_counts_target (cfg : Config) (st : LMState) (payload : SearchPayload)
    (maxN : Nat) (p v : GoStr) (ids : List Nat) :
    ∀ res counts count,
      counts0 (searchLoop cfg st payload maxN ids res counts count).2 p v =
        counts0 counts p v +
          ((ids.filterMap fun i => lookupA st.logStore i).countP fun raw =>
            logMatches raw payload && (lookupA (flattenMap raw) p == some v) &&
              !omitIndexValue cfg st.blacklist p v) := by
  induction ids with
  | nil => intro res counts count; simp [searchLoop]
  | cons eid rest ih =>
    intro res counts count
    rw [List.filterMap_cons]
    unfold searchLoop
    split
    next hs =>
      rw [hs]
      exact ih res counts count
    next raw hs =>
      rw [hs, List.countP_cons]
      by_cases hm : logMatches raw payload = true
      · rw [if_pos hm, ih, counts0_incAll cfg st.blacklist _ (keysNodup_flattenMap raw)]
        have hcond : (if (p, v) ∈ flattenMap raw ∧
              omitIndexValue cfg st.blacklist p v = false then 1 else 0) =
            (if (logMatches raw payload && (lookupA (flattenMap raw) p == some v) &&
              !omitIndexValue cfg st.blacklist p v) = true then 1 else 0) := by
          by_cases hc : (p, v) ∈ flattenMap raw ∧
              omitIndexValue cfg st.blacklist p v = false
          · rw [if_pos hc]
            have h1 : lookupA (flattenMap raw) p = some v :=
              mem_lookupA (keysNodup_flattenMap raw) hc.1
            rw [if_pos (by simp [hm, h1, hc.2])]
          · rw [if_neg hc]
            rw [if_neg ?_]
            intro hb
            apply hc
            simp only [Bool.and_eq_true, beq_iff_eq, Bool.not_eq_true'] at hb
            exact ⟨lookupA_mem hb.1.2, hb.2⟩
        omega
      · rw [if_neg hm, ih]
        have hm' : logMatches raw payload = false := by
          cases hb : logMatches raw payload
          · rfl
          · exact absurd hb hm
        simp [hm']

/-- Reading the initial client counts applies the zero-or-keep rule to
the global count. -/
theorem countsOpt_initClientCounts (filters : List (GoStr × List GoStr))
    (global : CountsMap) (p v : GoStr) :
    countsOpt (initClientCounts filters global) p v =
      (countsOpt global p v).map fun c =>
        match lookupA filters p with
        | some allowed => if allowed.contains v then 0 else c
        | none => 0 := by
  unfold countsOpt
  have houter : lookupA (initClientCounts filters global) p =
      (lookupA global p).map fun inner => inner.map fun vc =>
        (vc.1, match lookupA filters p with
          | some allowed => if allowed.contains vc.1 then 0 else vc.2
          | none => 0) := by
    unfold initClientCounts
    induction global with
    | nil => rfl
    | cons pvs rest ih =>
      obtain ⟨p₀, inner⟩ := pvs
      simp only [List.map_cons, lookupA]
      by_cases hp : p₀ = p
      · subst hp
        simp
      · rw [if_neg hp, if_neg hp]
        exact ih
  rw [houter]
  cases hg : lookupA global p with
  | none => rfl
  | some inner =>
    clear hg
    simp only [Option.map_some', Option.some_bind]
    exact lookupA_map_val
      (fun w c => match lookupA filters p with
        | some allowed => if allowed.contains w then 0 else c
        | none => 0) inner v

/-- C1 (amended): in the index-count snapshot returned by SearchLogs
(delivered in the set_logs reply to a set_search message), for each
actively filtered property a value not in the allowed set keeps the
unfiltered global index count, while values in the allowed set and all
values of non-filtered properties carry the true running count of
matching entries. -/
theorem claim_C1_amended (cfg : Config) (st : LMState) (payload : SearchPayload)
    (maxN : Nat) (p v : GoStr) :
    (∀ allowed, lookupA payload.filters p = some allowed → allowed.contains v = false →
      countsOpt (SearchLogs cfg st payload maxN).2 p v =
        countsOpt (GetIndexCounts st.index) p v) ∧
    ((lookupA payload.filters p = none ∨
      (∃ allowed, lookupA payload.filters p = some allowed ∧ allowed.contains v = true)) →
      counts0 (SearchLogs cfg st payload maxN).2 p v = matchingCount cfg st payload p v) := by
  constructor
  · intro allowed hf hv
    unfold SearchLogs
    rw [searchLoop_counts_out cfg st payload maxN p v allowed hf hv]
    rw [countsOpt_initClientCounts]
    have hv' : v ∉ allowed := by simpa using hv
    cases hgl : countsOpt (GetIndexCounts st.index) p v <;> simp [hf, hv']
  · intro hcase
    unfold SearchLogs matchingCount
    rw [searchLoop_counts_target]
    have hzero : counts0
        (initClientCounts payload.filters (GetIndexCounts st.index)) p v = 0 := by
      unfold counts0
      rw [countsOpt_initClientCounts]
      rcases hcase with hnone | ⟨allowed, hf, hv⟩
      · cases hgl : countsOpt (GetIndexCounts st.index) p v <;> simp [hnone]
      · have hv' : v ∈ allowed := by simpa using hv
        cases hgl : countsOpt (GetIndexCounts st.index) p v <;> simp [hf, hv']
    rw [hzero, Nat.zero_add]

/-- Counterexample to claim C1: with stored entries of level INFO and
ERROR and the filter level = [INFO], the snapshot returned by
SearchLogs reports 1 — the unfiltered global count — for the
filtered-out value ERROR, not 0 as the claim states. -/
theorem claim_C1_counterexample :
    countsOpt (SearchLogs ⟨10, 10, 50⟩
        (addAll ⟨10, 10, 50⟩ NewLogManager [entryInfo, entryError])
        ⟨[], [("level".toList, ["INFO".toList])]⟩ 1000).2
      "level".toList "ERROR".toList = some 1 ∧
    lookupA ([("level".toList, ["INFO".toList])] :
        List (GoStr × List GoStr)) "level".toList = some ["INFO".toList] ∧
    (["INFO".toList] : List GoStr).contains "ERROR".toList = false := by
  decide

/-- Witness for the amended claim C1 at the counterexample's state: the
filtered-out value ERROR keeps the global count, and the allowed value
INFO carries the running count of matching entries. -/
theorem claim_C1_witness :
    countsOpt (SearchLogs ⟨10, 10, 50⟩
        (addAll ⟨10, 10, 50⟩ NewLogManager [entryInfo, entryError])
        ⟨[], [("level".toList, ["INFO".toList])]⟩ 1000).2
      "level".toList "ERROR".toList =
      countsOpt (GetIndexCounts (addAll ⟨10, 10, 50⟩ NewLogManager
        [entryInfo, entryError]).index) "level".toList "ERROR".toList ∧
    counts0 (SearchLogs ⟨10, 10, 50⟩
        (addAll ⟨10, 10, 50⟩ NewLogManager [entryInfo, entryError])
        ⟨[], [("level".toList, ["INFO".toList])]⟩ 1000).2
      "level".toList "INFO".toList =
      matchingCount ⟨10, 10, 50⟩
        (addAll ⟨10, 10, 50⟩ NewLogManager [entryInfo, entryError])
        ⟨[], [("level".toList, ["INFO".toList])]⟩
        "level".toList "INFO".toList :=
  ⟨(claim_C1_amended ⟨10, 10, 50⟩
      (addAll ⟨10, 10, 50⟩ NewLogManager [entryInfo, entryError])
      ⟨[], [("level".toList, ["INFO".toList])]⟩ 1000
      "level".toList "ERROR".toList).1 ["INFO".toList] (by decide) (by decide),
   (claim_C1_amended ⟨10, 10, 50⟩
      (addAll ⟨10, 10, 50⟩ NewLogManager [entryInfo, entryError])
      ⟨[], [("level".toList, ["INFO".toList])]⟩ 1000
      "level".toList "INFO".toList).2
      (Or.inr ⟨["INFO".toList], by decide, by decide⟩)⟩

/-- C8 (code evidence): with maxLogs = 1 the second append evicts the
oldest entry — the order shrinks back to one id, entry 1 leaves the
store and every index bucket — yet the append emits no event at all: in
particular no updateIndex broadcast, since this revision's
enforceMaxLogs carries a to-do comment in place of the notification and
its LogManagerConfig has no update callback. -/
theorem claim_C8 :
    (AddLogEntry ⟨10, 1, 50⟩ (addAll ⟨10, 1, 50⟩ NewLogManager [entryInfo])
        entryError).1.logOrder = [2] ∧
    lookupA (AddLogEntry ⟨10, 1, 50⟩ (addAll ⟨10, 1, 50⟩ NewLogManager [entryInfo])
        entryError).1.logStore 1 = none ∧
    idInIndex (AddLogEntry ⟨10, 1, 50⟩ (addAll ⟨10, 1, 50⟩ NewLogManager [entryInfo])
        entryError).1.index 1 = false ∧
    (AddLogEntry ⟨10, 1, 50⟩ (addAll ⟨10, 1, 50⟩ NewLogManager [entryInfo])
        entryError).2.1 = [] := by
  decide

/-- Lowercasing a character never changes whether it is whitespace. -/
theorem isUnicodeWhitespace_toLower (c : Char) :
    isUnicodeWhitespace (Char.toLower c) = isUnicodeWhitespace c := by
  have hdef : Char.toLower c =
      if c.toNat ≥ 65 ∧ c.toNat ≤ 90 then Char.ofNat (c.toNat + 32) else c := rfl
  obtain ⟨n, hn⟩ : ∃ n, c.toNat = n := ⟨_, rfl⟩
  rw [hn] at hdef
  by_cases h : 65 ≤ n ∧ n ≤ 90
  · rw [hdef, if_pos h]
    obtain ⟨h1, h2⟩ := h
    interval_cases n <;> (simp only [isUnicodeWhitespace]; rw [hn]; decide)
  · rw [hdef, if_neg h]

/-- Mapping a separator-respecting function commutes with splitOnP. -/
theorem splitOnP_map_comm {α : Type} (p : α → Bool) (f : α → α)
    (hf : ∀ a, p (f a) = p a) (l : List α) :
    (l.map f).splitOnP p = (l.splitOnP p).map (List.map f) := by
  induction l with
  | nil => simp [List.splitOnP_nil]
  | cons a l ih =>
    rw [List.map_cons, List.splitOnP_cons, List.splitOnP_cons, hf]
    by_cases h : p a
    · rw [if_pos h, if_pos h, List.map_cons, ih, List.map_nil]
    · rw [if_neg h, if_neg h, ih]
      cases l.splitOnP p with
      | nil => simp [List.modifyHead]
      | cons x xs => simp [List.modifyHead]

/-- Dropping empty parts commutes with mapping over the parts. -/
theorem filter_nonempty_map {α : Type} (f : α → α) (xs : List (List α)) :
    (xs.map (List.map f)).filter (fun part => !part.isEmpty) =
      (xs.filter (fun part => !part.isEmpty)).map (List.map f) := by
  induction xs with
  | nil => rfl
  | cons x xs ih => cases x <;> simp [List.filter_cons, ih]

/-- Tokenizing the lowercased term yields the lowercased tokens. -/
theorem splitOnWhitespace_goToLower (s : GoStr) :
    splitOnWhitespace (goToLower s) = (splitOnWhitespace s).map goToLower := by
  unfold splitOnWhitespace goToLower
  rw [splitOnP_map_comm _ _ isUnicodeWhitespace_toLower, filter_nonempty_map]

/-- A string of whitespace only has no tokens. -/
theorem splitOnWhitespace_all_ws (s : GoStr) :
    (∀ c ∈ s, isUnicodeWhitespace c = true) → splitOnWhitespace s = [] := by
  induction s with
  | nil => intro _; rfl
  | cons a s ih =>
    intro h
    have hfil : splitOnWhitespace (a :: s) = splitOnWhitespace s := by
      unfold splitOnWhitespace
      rw [List.splitOnP_cons, if_pos (h a (List.mem_cons_self a s))]
      simp [List.filter_cons]
    rw [hfil]
    exact ih fun c hc => h c (List.mem_cons_of_mem _ hc)

/-- C6: for every entry and nonempty term in literal mode, matchesSearch
is true iff every token obtained by splitting the term on Unicode
whitespace occurs as a case-insensitive substring of at least one
flattened value (AND across tokens, OR across fields); a term with only
whitespace matches every entry, and so does the empty term. -/
theorem claim_C6 (raw : JObj) (term : GoStr) :
    (logMatchesSearch raw term false none = true ↔
      ∀ tok ∈ splitOnWhitespace term, ∃ kv ∈ flattenMap raw,
        goContains (goToLower kv.2) (goToLower tok) = true) ∧
    ((∀ c ∈ term, isUnicodeWhitespace c = true) →
      logMatchesSearch raw term false none = true) ∧
    logMatchesSearch raw [] false none = true := by
  refine ⟨?_, ?_, by simp [logMatchesSearch]⟩
  · unfold logMatchesSearch
    by_cases hterm : term = []
    · subst hterm
      simp [splitOnWhitespace, List.splitOnP_nil]
    · rw [if_neg hterm]
      simp only [Bool.false_eq_true, if_false]
      unfold stringSearch
      rw [splitOnWhitespace_goToLower, List.all_map]
      simp [List.all_eq_true, List.any_eq_true, Function.comp]
  · intro hws
    unfold logMatchesSearch
    by_cases hterm : term = []
    · simp [hterm]
    · rw [if_neg hterm]
      simp only [Bool.false_eq_true, if_false]
      unfold stringSearch
      have : splitOnWhitespace (goToLower term) = [] := by
        apply splitOnWhitespace_all_ws
        intro c hc
        obtain ⟨d, hd, rfl⟩ := List.mem_map.mp hc
        rw [isUnicodeWhitespace_toLower]
        exact hws d hd
      rw [this]
      rfl

/-- Witness for claim C6: a whitespace-only term matches a concrete entry. -/
theorem claim_C6_witness :
    logMatchesSearch (JObj.cons "m".toList (.str "x".toList) .nil)
      [' ', '\t'] false none = true :=
  (claim_C6 (JObj.cons "m".toList (.str "x".toList) .nil) [' ', '\t']).2.1 (by decide)

/-- Counterexample to claim C2: the term "[a b" makes Go
`regexp.Compile("(?i)[a b")` fail (unbalanced bracket, modelled by the
`none` matcher), and on that term the code's fallback returns true on
an entry with flattened values "[a" and "b" while a literal
case-insensitive substring search of the whole, unsplit term text
returns false: the fallback tokenizes, it does not search the whole
term. -/
theorem claim_C2_counterexample :
    logMatchesSearch
      (JObj.cons "m".toList (.str "[a".toList) (JObj.cons "n".toList (.str "b".toList) .nil))
      "[a b".toList true none = true ∧
    wholeTermLiteralSearch "[a b".toList
      (flattenMap
        (JObj.cons "m".toList (.str "[a".toList)
          (JObj.cons "n".toList (.str "b".toList) .nil))) = false := by
  decide

/-- C2 (amended): for every entry and search term whose compilation as
a case-insensitive regular expression fails, matchesSearch in regex
mode returns exactly the result of literal-mode matching on the term
(the whitespace-tokenized case-insensitive substring search), and never
raises an error: the embedding of the failure path is the same total
function as the literal mode. -/
theorem claim_C2_amended (raw : JObj) (term : GoStr) (re : Option (GoStr → Bool)) :
    logMatchesSearch raw term true none = logMatchesSearch raw term false re := by
  unfold logMatchesSearch
  by_cases h : term = [] <;> simp [h]

/-- C5: matchesFilters is true iff for every (property, allowedValues)
pair the entry's flat-view value for the property is in allowedValues;
an empty allowedValues list makes the entry fail, and an empty filter
matches every entry (OR within a property, AND across properties). -/
theorem claim_C5 (raw : JObj) (filter : List (GoStr × List GoStr)) :
    (logMatchesFilter raw filter = true ↔
      ∀ pf ∈ filter, flatLookup (flattenMap raw) pf.1 ∈ pf.2) ∧
    logMatchesFilter raw [] = true ∧
    (∀ p, (p, ([] : List GoStr)) ∈ filter → logMatchesFilter raw filter = false) := by
  refine ⟨?_, rfl, ?_⟩
  · unfold logMatchesFilter
    simp [List.all_eq_true, List.contains, List.elem_iff]
  · intro p hp
    cases hfv : logMatchesFilter raw filter with
    | false => rfl
    | true =>
      unfold logMatchesFilter at hfv
      have h2 := List.all_eq_true.mp hfv (p, []) hp
      simp at h2

/-- Witness for claim C5: a filter with an empty allowed list rejects a
concrete entry. -/
theorem claim_C5_witness :
    logMatchesFilter (JObj.cons "level".toList (.str "INFO".toList) .nil)
      [("level".toList, ([] : List GoStr))] = false :=
  (claim_C5 (JObj.cons "level".toList (.str "INFO".toList) .nil)
    [("level".toList, [])]).2.2 "level".toList (by decide)

/-- C10: for an entry whose raw JSON lacks a filtered property, or
whose value there is null (stringified to the empty string), the
filter's flat-view value is the empty string, so a single filter on
that property is satisfied iff the empty string is among its allowed
values; null stringifies to the empty string. -/
theorem claim_C10 (raw : JObj) (p : GoStr) (vals : List GoStr)
    (h : lookupA (flattenMap raw) p = none ∨ lookupA (flattenMap raw) p = some []) :
    ((logMatchesFilter raw [(p, vals)] = true) ↔ ([] : GoStr) ∈ vals) ∧
    toString JScalar.jnull = [] := by
  refine ⟨?_, rfl⟩
  unfold logMatchesFilter flatLookup
  rcases h with h | h <;>
    simp [h, List.all_cons, List.all_nil, List.contains, List.elem_iff]

/-- Witness for claim C10: a null-valued property and a missing
property are both selected by filters allowing the empty string. -/
theorem claim_C10_witness :
    logMatchesFilter (JObj.cons "x".toList .jnull .nil)
      [("x".toList, [([] : GoStr)])] = true ∧
    logMatchesFilter JObj.nil [("level".toList, [([] : GoStr)])] = true :=
  ⟨(claim_C10 (JObj.cons "x".toList .jnull .nil) "x".toList [[]]
      (Or.inr (by decide))).1.mpr (by decide),
   (claim_C10 JObj.nil "level".toList [[]] (Or.inl (by decide))).1.mpr (by decide)⟩

/-- Collecting optional list elements over a contiguous index range,
shifted by one, yields a suffix of the list. -/
theorem range'_filterMap_getElem {α : Type} (l : List α) :
    ∀ n s, 1 ≤ s → s + n = l.length + 1 →
      (List.range' s n).filterMap (fun i => l[i - 1]?) = l.drop (s - 1) := by
  intro n
  induction n with
  | zero =>
    intro s hs hn
    rw [List.drop_eq_nil_of_le (by omega)]
    rfl
  | succ n ih =>
    intro s hs hn
    have hlt : s - 1 < l.length := by omega
    rw [List.range'_succ, List.filterMap_cons]
    simp only [List.getElem?_eq_getElem hlt]
    rw [ih (s + 1) (by omega) (by omega)]
    rw [List.drop_eq_getElem_cons hlt]
    have e1 : s + 1 - 1 = s - 1 + 1 := by omega
    rw [e1]

/-- enforceMaxLogs drops at most one entry from the order. -/
theorem enforceMaxLogs_order_len (cfg : Config) (st : LMState) :
    st.logOrder.length - 1 ≤ (enforceMaxLogs cfg st).logOrder.length ∧
      (enforceMaxLogs cfg st).logOrder.length ≤ st.logOrder.length := by
  by_cases hover : st.logOrder.length > cfg.maxLogs
  · cases horder : st.logOrder with
    | nil =>
      rw [horder] at hover
      simp at hover
    | cons oldest rest =>
      cases hx : lookupA st.logStore oldest with
      | none =>
        rw [enforceMaxLogs_over_none hover horder hx]
        show (oldest :: rest).length - 1 ≤ rest.length ∧
          rest.length ≤ (oldest :: rest).length
        simp only [List.length_cons]
        omega
      | some rawOld =>
        rw [enforceMaxLogs_over hover horder hx]
        show (oldest :: rest).length - 1 ≤ rest.length ∧
          rest.length ≤ (oldest :: rest).length
        simp only [List.length_cons]
        omega
  · rw [enforceMaxLogs_under hover]
    omega

/-- One append grows the order by one and then evicts at most one
entry: the retained count never moves by more than one per call. -/
theorem AddLogEntry_order_len (cfg : Config) (st : LMState) (raw : JObj) :
    st.logOrder.length ≤ (AddLogEntry cfg st raw).1.logOrder.length ∧
      (AddLogEntry cfg st raw).1.logOrder.length ≤ st.logOrder.length + 1 := by
  obtain ⟨stt, hstep, hord1⟩ :
      ∃ stt : LMState, (AddLogEntry cfg st raw).1 = enforceMaxLogs cfg stt ∧
        stt.logOrder = st.logOrder ++ [st.idCounter + 1] :=
    ⟨{ logOrder := st.logOrder ++ [st.idCounter + 1]
       logStore := upsert (st.idCounter + 1) raw st.logStore
       index := (addToIndex cfg (st.idCounter + 1) (flattenMap raw)
         st.index st.blacklist []).1
       blacklist := (addToIndex cfg (st.idCounter + 1) (flattenMap raw)
         st.index st.blacklist []).2.1
       idCounter := st.idCounter + 1 }, rfl, rfl⟩
  have h := enforceMaxLogs_order_len cfg stt
  rw [hord1] at h
  simp only [List.length_append, List.length_singleton] at h
  rw [hstep]
  omega

/-- One append step preserves the exact-run description: the id counter
counts the appends, the order holds the last min(n, maxLogs) ids
consecutively, and the store maps exactly those ids to their raw
entries. -/
theorem AddLogEntry_exact_step (cfg : Config) (st : LMState) (r : JObj)
    (raws : List JObj) (hid : st.idCounter = raws.length)
    (hord : st.logOrder =
      List.range' (raws.length - min raws.length cfg.maxLogs + 1)
        (min raws.length cfg.maxLogs))
    (hsto : ∀ i, lookupA st.logStore i =
      if raws.length - min raws.length cfg.maxLogs + 1 ≤ i ∧ i ≤ raws.length
        then raws[i - 1]? else none) :
    (AddLogEntry cfg st r).1.idCounter = raws.length + 1 ∧
    (AddLogEntry cfg st r).1.logOrder =
      List.range' (raws.length + 1 - min (raws.length + 1) cfg.maxLogs + 1)
        (min (raws.length + 1) cfg.maxLogs) ∧
    ∀ i, lookupA (AddLogEntry cfg st r).1.logStore i =
      if raws.length + 1 - min (raws.length + 1) cfg.maxLogs + 1 ≤ i ∧
          i ≤ raws.length + 1
        then (raws ++ [r])[i - 1]? else none := by
  obtain ⟨stt, hstep, hord1, hsto1, hidc1⟩ :
      ∃ stt : LMState, (AddLogEntry cfg st r).1 = enforceMaxLogs cfg stt ∧
        stt.logOrder = st.logOrder ++ [st.idCounter + 1] ∧
        stt.logStore = upsert (st.idCounter + 1) r st.logStore ∧
        stt.idCounter = st.idCounter + 1 :=
    ⟨{ logOrder := st.logOrder ++ [st.idCounter + 1]
       logStore := upsert (st.idCounter + 1) r st.logStore
       index := (addToIndex cfg (st.idCounter + 1) (flattenMap r)
         st.index st.blacklist []).1
       blacklist := (addToIndex cfg (st.idCounter + 1) (flattenMap r)
         st.index st.blacklist []).2.1
       idCounter := st.idCounter + 1 }, rfl, rfl, rfl, rfl⟩
  rw [hid] at hord1 hsto1 hidc1
  have hlen1 : stt.logOrder.length = min raws.length cfg.maxLogs + 1 := by
    rw [hord1, hord]
    simp [List.length_append, List.length_range']
  have hstot : ∀ i, lookupA stt.logStore i =
      if i = raws.length + 1 then some r
      else if raws.length - min raws.length cfg.maxLogs + 1 ≤ i ∧ i ≤ raws.length
        then raws[i - 1]? else none := by
    intro i
    rw [hsto1]
    by_cases hieq : i = raws.length + 1
    · rw [if_pos hieq, hieq, lookupA_upsert_self]
    · rw [if_neg hieq, lookupA_upsert_ne _ _ _ _ hieq, hsto i]
  by_cases hcap : raws.length + 1 ≤ cfg.maxLogs
  · have hunder : ¬stt.logOrder.length > cfg.maxLogs := by
      rw [hlen1]
      omega
    rw [hstep, enforceMaxLogs_under hunder]
    have hminA : min raws.length cfg.maxLogs = raws.length := by omega
    have hminA1 : min (raws.length + 1) cfg.maxLogs = raws.length + 1 := by omega
    refine ⟨hidc1, ?_, ?_⟩
    · rw [hord1, hord, hminA, hminA1]
      have e1 : raws.length - raws.length + 1 = 1 := by omega
      have e2 : raws.length + 1 - (raws.length + 1) + 1 = 1 := by omega
      rw [e1, e2, List.range'_concat]
      have e3 : 1 + 1 * raws.length = raws.length + 1 := by omega
      rw [e3]
    · intro i
      rw [hstot i, hminA1]
      have e2 : raws.length + 1 - (raws.length + 1) + 1 = 1 := by omega
      rw [e2]
      by_cases hieq : i = raws.length + 1
      · have hc2 : 1 ≤ i ∧ i ≤ raws.length + 1 := by omega
        rw [if_pos hieq, if_pos hc2, hieq,
          List.getElem?_append_right (show raws.length ≤ raws.length + 1 - 1 by omega)]
        have e4 : raws.length + 1 - 1 - raws.length = 0 := by omega
        rw [e4]
        rfl
      · rw [if_neg hieq, hminA]
        have e1 : raws.length - raws.length + 1 = 1 := by omega
        rw [e1]
        by_cases hin : 1 ≤ i ∧ i ≤ raws.length
        · have hc2 : 1 ≤ i ∧ i ≤ raws.length + 1 := by omega
          rw [if_pos hin, if_pos hc2,
            List.getElem?_append_left (show i - 1 < raws.length by omega)]
        · have hc3 : ¬(1 ≤ i ∧ i ≤ raws.length + 1) := by omega
          rw [if_neg hin, if_neg hc3]
  · have hminB : min raws.length cfg.maxLogs = cfg.maxLogs := by omega
    have hminB1 : min (raws.length + 1) cfg.maxLogs = cfg.maxLogs := by omega
    have hover : stt.logOrder.length > cfg.maxLogs := by
      rw [hlen1]
      omega
    by_cases hz : cfg.maxLogs = 0
    · have horder0 : stt.logOrder = [raws.length + 1] := by
        rw [hord1, hord, hminB, hz]
        rfl
      have hx0 : lookupA stt.logStore (raws.length + 1) = some r := by
        rw [hstot, if_pos rfl]
      rw [hstep, enforceMaxLogs_over hover horder0 hx0]
      refine ⟨hidc1, ?_, ?_⟩
      · rw [hminB1, hz]
        rfl
      · intro i
        rw [hminB1, hz]
        have hcf : ¬(raws.length + 1 - 0 + 1 ≤ i ∧ i ≤ raws.length + 1) := by omega
        rw [if_neg hcf]
        show lookupA (eraseKey (raws.length + 1) stt.logStore) i = none
        by_cases hieq : i = raws.length + 1
        · rw [hieq, lookupA_eraseKey_self]
        · rw [lookupA_eraseKey_ne _ _ _ hieq, hstot i, if_neg hieq]
          have hcf2 : ¬(raws.length - min raws.length cfg.maxLogs + 1 ≤ i ∧
              i ≤ raws.length) := by omega
          rw [if_neg hcf2]
    · obtain ⟨m0, hm0⟩ : ∃ m0, cfg.maxLogs = m0 + 1 := ⟨cfg.maxLogs - 1, by omega⟩
      have horderB : stt.logOrder =
          (raws.length - m0) ::
            (List.range' (raws.length - m0 + 1) m0 ++ [raws.length + 1]) := by
        rw [hord1, hord, hminB, hm0]
        have e6 : raws.length - (m0 + 1) + 1 = raws.length - m0 := by omega
        rw [e6, List.range'_succ, List.cons_append]
      obtain ⟨w, hw⟩ : ∃ w, raws[raws.length - m0 - 1]? = some w := by
        rw [List.getElem?_eq_getElem (show raws.length - m0 - 1 < raws.length by omega)]
        exact ⟨_, rfl⟩
      have hxB : lookupA stt.logStore (raws.length - m0) = some w := by
        rw [hstot]
        have hne : ¬(raws.length - m0 = raws.length + 1) := by omega
        rw [if_neg hne]
        have hc : raws.length - min raws.length cfg.maxLogs + 1 ≤ raws.length - m0 ∧
            raws.length - m0 ≤ raws.length := by omega
        rw [if_pos hc, hw]
      rw [hstep, enforceMaxLogs_over hover horderB hxB]
      refine ⟨hidc1, ?_, ?_⟩
      · show List.range' (raws.length - m0 + 1) m0 ++ [raws.length + 1] = _
        rw [hminB1, hm0]
        have e7 : raws.length + 1 - (m0 + 1) + 1 = raws.length - m0 + 1 := by omega
        rw [e7, List.range'_concat]
        have e8 : raws.length - m0 + 1 + 1 * m0 = raws.length + 1 := by omega
        rw [e8]
      · intro i
        show lookupA (eraseKey (raws.length - m0) stt.logStore) i = _
        rw [hminB1, hm0]
        have e7 : raws.length + 1 - (m0 + 1) + 1 = raws.length - m0 + 1 := by omega
        rw [e7]
        by_cases hio : i = raws.length - m0
        · have hcf : ¬(raws.length - m0 + 1 ≤ i ∧ i ≤ raws.length + 1) := by omega
          rw [if_neg hcf, hio, lookupA_eraseKey_self]
        · rw [lookupA_eraseKey_ne _ _ _ hio, hstot i]
          by_cases hieq : i = raws.length + 1
          · have hc1 : raws.length - m0 + 1 ≤ i ∧ i ≤ raws.length + 1 := by omega
            rw [if_pos hieq, if_pos hc1, hieq,
              List.getElem?_append_right
                (show raws.length ≤ raws.length + 1 - 1 by omega)]
            have e9 : raws.length + 1 - 1 - raws.length = 0 := by omega
            rw [e9]
            rfl
          · rw [if_neg hieq]
            by_cases hin : raws.length - min raws.length cfg.maxLogs + 1 ≤ i ∧
                i ≤ raws.length
            · have hc1 : raws.length - m0 + 1 ≤ i ∧ i ≤ raws.length + 1 := by omega
              rw [if_pos hin, if_pos hc1,
                List.getElem?_append_left (show i - 1 < raws.length by omega)]
            · have hc2 : ¬(raws.length - m0 + 1 ≤ i ∧ i ≤ raws.length + 1) := by omega
              rw [if_neg hin, if_neg hc2]

/-- The exact-run description of an append run from the empty manager:
n appends leave the ids n - min(n, maxLogs) + 1 .. n in order and
exactly their raw entries in the store. -/
theorem addAll_exact (cfg : Config) (raws : List JObj) :
    (addAll cfg NewLogManager raws).idCounter = raws.length ∧
    (addAll cfg NewLogManager raws).logOrder =
      List.range' (raws.length - min raws.length cfg.maxLogs + 1)
        (min raws.length cfg.maxLogs) ∧
    ∀ i : Nat, lookupA (addAll cfg NewLogManager raws).logStore i =
      if raws.length - min raws.length cfg.maxLogs + 1 ≤ i ∧ i ≤ raws.length
        then raws[i - 1]? else none := by
  induction raws using List.reverseRecOn with
  | nil =>
    refine ⟨rfl, ?_, ?_⟩
    · show ([] : List Nat) = _
      simp
    · intro i
      simp only [List.length_nil]
      have hcf : ¬(0 - min 0 cfg.maxLogs + 1 ≤ i ∧ i ≤ 0) := by omega
      rw [if_neg hcf]
      rfl
  | append_singleton raws r ih =>
    obtain ⟨hid, hord, hsto⟩ := ih
    have h := AddLogEntry_exact_step cfg (addAll cfg NewLogManager raws) r raws
      hid hord hsto
    rw [addAll_append cfg raws [r] NewLogManager]
    have hone : addAll cfg (addAll cfg NewLogManager raws) [r] =
        (AddLogEntry cfg (addAll cfg NewLogManager raws) r).1 := rfl
    rw [hone]
    simp only [List.length_append, List.length_singleton]
    exact ⟨h.1, h.2.1, h.2.2⟩

/-- Under the key-nodup invariants, a positive idInIndex answer
exhibits a concrete bucket holding the id. -/
theorem idInIndex_true_elim {idx : Index} {id : Nat}
    (hn : KeysNodup idx) (hbn : ∀ p vm, lookupA idx p = some vm → KeysNodup vm)
    (h : idInIndex idx id = true) : ∃ p v, idInBucket idx p v id := by
  unfold idInIndex at h
  rw [List.any_eq_true] at h
  obtain ⟨pvm, hpvm, h2⟩ := h
  rw [List.any_eq_true] at h2
  obtain ⟨vids, hvids, h3⟩ := h2
  have hl1 : lookupA idx pvm.1 = some pvm.2 := mem_lookupA hn (by
    rw [Prod.mk.eta]
    exact hpvm)
  have hl2 : lookupA pvm.2 vids.1 = some vids.2 :=
    mem_lookupA (hbn pvm.1 pvm.2 hl1) (by
      rw [Prod.mk.eta]
      exact hvids)
  refine ⟨pvm.1, vids.1, vids.2, ?_, List.mem_of_elem_eq_true h3⟩
  unfold bucketGet
  rw [hl1]
  simpa using hl2

/-- flattenMapInternal is the fold of single-leaf writes over the
dotted-key leaf enumeration, in traversal order. -/
theorem flattenMapInternal_foldl : ∀ (data : JObj) (out : AList) (pre : GoStr),
    flattenMapInternal data out pre =
      (leavesAt pre data).foldl (fun acc kv => upsert kv.1 (toString kv.2) acc) out := by
  intro data
  induction data with
  | nil =>
    intro out pre
    rfl
  | cons k v rest ih =>
    intro out pre
    simp only [flattenMapInternal, leavesAt, List.foldl_cons]
    rw [ih]
  | consObj k v rest ihv ihrest =>
    intro out pre
    simp only [flattenMapInternal, leavesAt, List.foldl_append]
    rw [ihv, ihrest]

/-- A fold of leaf writes never touches a key outside the fold. -/
theorem lookupA_foldl_upsert_not_mem :
    ∀ (l : List (GoStr × JScalar)) (acc : AList) (k : GoStr), k ∉ keysOf l →
      lookupA (l.foldl (fun acc2 kv => upsert kv.1 (toString kv.2) acc2) acc) k =
        lookupA acc k := by
  intro l
  induction l with
  | nil =>
    intro acc k h
    rfl
  | cons kv rest ih =>
    intro acc k h
    have hk : k ≠ kv.1 := by
      intro he
      exact h (by rw [he]; exact List.mem_cons_self _ _)
    rw [List.foldl_cons, ih _ _ (fun hm => h (List.mem_cons_of_mem _ hm))]
    show lookupA (upsert kv.1 (toString kv.2) acc) k = lookupA acc k
    exact lookupA_upsert_ne _ _ _ _ hk

/-- With pairwise distinct keys, a fold of leaf writes maps each folded
key to the stringification of its leaf. -/
theorem lookupA_foldl_upsert_mem :
    ∀ (l : List (GoStr × JScalar)) (acc : AList) (d : GoStr) (s : JScalar),
      (keysOf l).Nodup → (d, s) ∈ l →
      lookupA (l.foldl (fun acc2 kv => upsert kv.1 (toString kv.2) acc2) acc) d =
        some (toString s) := by
  intro l
  induction l with
  | nil =>
    intro acc d s hn hm
    simp at hm
  | cons kv rest ih =>
    intro acc d s hn hm
    have hn2 : (keysOf rest).Nodup ∧ kv.1 ∉ keysOf rest := by
      have hc : (kv.1 :: keysOf rest).Nodup := hn
      exact ⟨hc.of_cons, (List.nodup_cons.mp hc).1⟩
    rw [List.foldl_cons]
    rcases List.mem_cons.mp hm with h1 | h1
    · cases h1
      rw [lookupA_foldl_upsert_not_mem rest _ d hn2.2]
      show lookupA (upsert d (toString s) acc) d = some (toString s)
      exact lookupA_upsert_self _ _ _
    · exact ih _ d s hn2.1 h1

/-- With pairwise distinct dotted keys, the flat view maps every dotted
key to the stringification of its scalar leaf. -/
theorem flattenMap_lookup_of_nodup (raw : JObj)
    (hn : (keysOf (leaves raw)).Nodup) (d : GoStr) (s : JScalar)
    (hm : (d, s) ∈ leaves raw) :
    lookupA (flattenMap raw) d = some (toString s) := by
  unfold flattenMap
  rw [flattenMapInternal_foldl]
  exact lookupA_foldl_upsert_mem (leaves raw) [] d s hn hm

/-- Every character a digit run produces is a decimal digit or comes
from the accumulator. -/
theorem mem_natDigitsFuel : ∀ (fuel n : Nat) (acc : List Char) (c : Char),
    c ∈ natDigitsFuel fuel n acc →
      (∃ d, d < 10 ∧ c = digitChar d) ∨ c ∈ acc := by
  intro fuel
  induction fuel with
  | zero =>
    intro n acc c h
    exact Or.inr h
  | succ fuel ih =>
    intro n acc c h
    simp only [natDigitsFuel] at h
    by_cases hn : n < 10
    · rw [if_pos hn] at h
      rcases List.mem_cons.mp h with h | h
      · exact Or.inl ⟨n, hn, h⟩
      · exact Or.inr h
    · rw [if_neg hn] at h
      rcases ih (n / 10) _ c h with h | h
      · exact Or.inl h
      · rcases List.mem_cons.mp h with h | h
        · exact Or.inl ⟨n % 10, Nat.mod_lt n (by omega), h⟩
        · exact Or.inr h

/-- Every character of the padded fraction layout is a sign, a dot, a
pad zero or a digit character. -/
theorem mem_pad_helper (sign s rep : List Char) (t : Nat) (c : Char)
    (hsign : ∀ x ∈ sign, x = '-') (hrep : ∀ x ∈ rep, x = '0')
    (h : c ∈ sign ++ (rep ++ s).take t ++ '.' :: (rep ++ s).drop t) :
    c = '-' ∨ c = '.' ∨ c = '0' ∨ c ∈ s := by
  rcases List.mem_append.mp h with h | h
  · rcases List.mem_append.mp h with h | h
    · exact Or.inl (hsign c h)
    · rcases List.mem_append.mp (List.mem_of_mem_take h) with h | h
      · exact Or.inr (Or.inr (Or.inl (hrep c h)))
      · exact Or.inr (Or.inr (Or.inr h))
  · rcases List.mem_cons.mp h with h | h
    · exact Or.inr (Or.inl h)
    · rcases List.mem_append.mp (List.mem_of_mem_drop h) with h | h
      · exact Or.inr (Or.inr (Or.inl (hrep c h)))
      · exact Or.inr (Or.inr (Or.inr h))

/-- Every character of a formatted decimal is a minus sign, a decimal
point or a digit: fixed-point notation has no exponent marker. -/
theorem mem_formatDecimal (m : Int) (e : Nat) (c : Char)
    (h : c ∈ formatDecimal m e) :
    c = '-' ∨ c = '.' ∨ ∃ d, d < 10 ∧ c = digitChar d := by
  have hsign : ∀ x ∈ (if (stripZeros m e).1 < 0 then ['-'] else ([] : List Char)),
      x = '-' := by
    intro x hx
    by_cases hs : (stripZeros m e).1 < 0
    · rw [if_pos hs] at hx
      simpa using hx
    · rw [if_neg hs] at hx
      simp at hx
  have hdig : ∀ x ∈ natDigits (stripZeros m e).1.natAbs,
      ∃ d, d < 10 ∧ x = digitChar d := by
    intro x hx
    simp only [natDigits] at hx
    rcases mem_natDigitsFuel _ _ _ _ hx with h2 | h2
    · exact h2
    · simp at h2
  simp only [formatDecimal] at h
  by_cases hp : (stripZeros m e).2 = 0
  · rw [if_pos hp] at h
    rcases List.mem_append.mp h with h | h
    · exact Or.inl (hsign c h)
    · exact Or.inr (Or.inr (hdig c h))
  · rw [if_neg hp] at h
    rcases mem_pad_helper _ _ _ _ c hsign
        (fun x hx => List.eq_of_mem_replicate hx) h with h | h | h | h
    · exact Or.inl h
    · exact Or.inr (Or.inl h)
    · exact Or.inr (Or.inr ⟨0, by omega, by rw [h]; rfl⟩)
    · exact Or.inr (Or.inr (hdig c h))

/-- An integer-rendered decimal (no remaining fractional digits)
contains no decimal point. -/
theorem formatDecimal_no_dot (m : Int) (e : Nat)
    (hp : (stripZeros m e).2 = 0) : '.' ∉ formatDecimal m e := by
  intro h
  simp only [formatDecimal] at h
  rw [if_pos hp] at h
  rcases List.mem_append.mp h with h | h
  · by_cases hs : (stripZeros m e).1 < 0
    · rw [if_pos hs] at h
      exact absurd h (by decide)
    · rw [if_neg hs] at h
      simp at h
  · simp only [natDigits] at h
    rcases mem_natDigitsFuel _ _ _ _ h with ⟨d, hd, hc⟩ | h2
    · interval_cases d <;> exact absurd hc (by decide)
    · simp at h2

/-- A digit run keeps a non-empty accumulator's last element. -/
theorem natDigitsFuel_getLast : ∀ (fuel n : Nat) (acc : List Char), acc ≠ [] →
    (natDigitsFuel fuel n acc).getLast? = acc.getLast? := by
  intro fuel
  induction fuel with
  | zero =>
    intro n acc h
    rfl
  | succ fuel ih =>
    intro n acc h
    simp only [natDigitsFuel]
    by_cases hn : n < 10
    · rw [if_pos hn]
      cases acc with
      | nil => exact absurd rfl h
      | cons b t => rw [List.getLast?_cons_cons]
    · rw [if_neg hn, ih (n / 10) _ (by simp)]
      cases acc with
      | nil => exact absurd rfl h
      | cons b t => rw [List.getLast?_cons_cons]

/-- The last digit printed for n is its ones digit. -/
theorem natDigits_getLast (n : Nat) :
    (natDigits n).getLast? = some (digitChar (n % 10)) := by
  simp only [natDigits, natDigitsFuel]
  by_cases hn : n < 10
  · rw [if_pos hn, Nat.mod_eq_of_lt hn]
    rfl
  · rw [if_neg hn, natDigitsFuel_getLast _ _ _ (by simp)]
    rfl

/-- A digit run is never empty. -/
theorem natDigits_ne_nil (n : Nat) : natDigits n ≠ [] := by
  intro h
  have h2 := natDigits_getLast n
  rw [h] at h2
  simp at h2

/-- Dropping part of a list keeps its last element. -/
theorem getLast_of_drop {α : Type} : ∀ (l : List α) (n : Nat), n < l.length →
    (l.drop n).getLast? = l.getLast? := by
  intro l
  induction l with
  | nil =>
    intro n h
    simp at h
  | cons a t ih =>
    intro n h
    cases n with
    | zero => rfl
    | succ n2 =>
      rw [List.drop_succ_cons, ih n2 (by simp only [List.length_cons] at h; omega)]
      cases t with
      | nil =>
        simp only [List.length_cons, List.length_nil] at h
        omega
      | cons b t2 => rw [List.getLast?_cons_cons]

/-- The last character of the padded fraction layout is the last
printed digit. -/
theorem getLast_frac_helper (sign s : List Char) (e2 : Nat) (hs : s ≠ [])
    (he2 : e2 ≠ 0) :
    (sign ++ (List.replicate (e2 + 1 - s.length) '0' ++ s).take
        ((List.replicate (e2 + 1 - s.length) '0' ++ s).length - e2) ++
      '.' :: (List.replicate (e2 + 1 - s.length) '0' ++ s).drop
        ((List.replicate (e2 + 1 - s.length) '0' ++ s).length - e2)).getLast? =
    s.getLast? := by
  have hslen : 0 < s.length := List.length_pos.mpr hs
  have hplen : e2 + 1 ≤ (List.replicate (e2 + 1 - s.length) '0' ++ s).length := by
    simp only [List.length_append, List.length_replicate]
    omega
  have hdrop_ne : (List.replicate (e2 + 1 - s.length) '0' ++ s).drop
      ((List.replicate (e2 + 1 - s.length) '0' ++ s).length - e2) ≠ [] := by
    apply List.length_pos.mp
    rw [List.length_drop]
    omega
  rw [List.getLast?_append_of_ne_nil _ (by simp)]
  obtain ⟨x, xs, hx⟩ : ∃ x xs,
      (List.replicate (e2 + 1 - s.length) '0' ++ s).drop
        ((List.replicate (e2 + 1 - s.length) '0' ++ s).length - e2) = x :: xs := by
    cases hd : (List.replicate (e2 + 1 - s.length) '0' ++ s).drop
        ((List.replicate (e2 + 1 - s.length) '0' ++ s).length - e2) with
    | nil => exact absurd hd hdrop_ne
    | cons x xs => exact ⟨x, xs, rfl⟩
  rw [hx, List.getLast?_cons_cons, ← hx]
  rw [getLast_of_drop _ _ (by omega)]
  exact List.getLast?_append_of_ne_nil _ hs

/-- A fraction-rendered decimal ends with the last printed digit of the
stripped mantissa. -/
theorem formatDecimal_getLast_frac (m : Int) (e : Nat)
    (hp : (stripZeros m e).2 ≠ 0) :
    (formatDecimal m e).getLast? =
      (natDigits (stripZeros m e).1.natAbs).getLast? := by
  simp only [formatDecimal]
  rw [if_neg hp]
  exact getLast_frac_helper _ _ _ (natDigits_ne_nil _) hp

/-- When fractional digits remain after stripping, the mantissa does
not end in zero. -/
theorem stripZeros_mod : ∀ (e : Nat) (m : Int), (stripZeros m e).2 ≠ 0 →
    (stripZeros m e).1 % 10 ≠ 0 := by
  intro e
  induction e with
  | zero =>
    intro m h
    exact absurd rfl h
  | succ e ih =>
    intro m h
    simp only [stripZeros] at h ⊢
    by_cases hm : m % 10 = 0
    · rw [if_pos hm] at h ⊢
      exact ih _ h
    · rw [if_neg hm] at h ⊢
      exact hm

/-- A mantissa not divisible by ten has a nonzero ones digit in
absolute value. -/
theorem intAbs_mod_ten (z : Int) (h : z % 10 ≠ 0) : z.natAbs % 10 ≠ 0 := by
  intro hc
  apply h
  apply Int.emod_eq_zero_of_dvd
  rw [← Int.natAbs_dvd_natAbs]
  exact Nat.dvd_of_mod_eq_zero hc

/-- A nonzero decimal digit does not print as the character zero. -/
theorem digitChar_ne_zero {d : Nat} (h1 : d < 10) (h2 : d ≠ 0) :
    digitChar d ≠ '0' := by
  interval_cases d
  · exact absurd rfl h2
  all_goals decide

/-- C7 is refuted on dotted-key collisions: the raw object
`\x7b"a": \x7b"b": "y"\x7d, "a.b": "x"\x7d` has the scalar leaf "y" at
dotted key "a.b", but the flat view holds "x" there, because both
leaves write the same flat key and the later write wins. -/
theorem claim_C7_counterexample :
    ("a.b".toList, JScalar.str "y".toList) ∈
      leaves (JObj.consObj "a".toList
        (JObj.cons "b".toList (.str "y".toList) .nil)
        (JObj.cons "a.b".toList (.str "x".toList) .nil)) ∧
    flatLookup (flattenMap (JObj.consObj "a".toList
        (JObj.cons "b".toList (.str "y".toList) .nil)
        (JObj.cons "a.b".toList (.str "x".toList) .nil))) "a.b".toList ≠
      toString (JScalar.str "y".toList) := by
  decide

/-- C7 (amended): for a JSON object whose scalar leaves have pairwise
distinct dotted keys, the flat view maps every dotted key to the
stringification of its scalar leaf; numbers render in fixed-point
notation with no exponent marker and no trailing fractional zero, null
renders as the empty string, and booleans render as true and false. -/
theorem claim_C7_amended (raw : JObj) (d : GoStr) (s : JScalar)
    (hnodup : (keysOf (leaves raw)).Nodup) (hmem : (d, s) ∈ leaves raw) :
    lookupA (flattenMap raw) d = some (toString s) ∧
    (∀ (m : Int) (e : Nat),
      'e' ∉ toString (JScalar.num m e) ∧ 'E' ∉ toString (JScalar.num m e) ∧
      ('.' ∈ toString (JScalar.num m e) →
        (toString (JScalar.num m e)).getLast? ≠ some '0')) ∧
    toString JScalar.jnull = [] ∧
    toString (JScalar.jbool true) = "true".toList ∧
    toString (JScalar.jbool false) = "false".toList := by
  refine ⟨flattenMap_lookup_of_nodup raw hnodup d s hmem, ?_, rfl, rfl, rfl⟩
  intro m e
  have hts : toString (JScalar.num m e) = formatDecimal m e := rfl
  refine ⟨?_, ?_, ?_⟩
  · intro h
    rw [hts] at h
    rcases mem_formatDecimal m e _ h with h | h | ⟨d2, hd2, hc⟩
    · exact absurd h (by decide)
    · exact absurd h (by decide)
    · interval_cases d2 <;> exact absurd hc (by decide)
  · intro h
    rw [hts] at h
    rcases mem_formatDecimal m e _ h with h | h | ⟨d2, hd2, hc⟩
    · exact absurd h (by decide)
    · exact absurd h (by decide)
    · interval_cases d2 <;> exact absurd hc (by decide)
  · intro hdot
    rw [hts] at hdot ⊢
    by_cases hp : (stripZeros m e).2 = 0
    · exact absurd hdot (formatDecimal_no_dot m e hp)
    · rw [formatDecimal_getLast_frac m e hp, natDigits_getLast]
      intro hcontra
      have h10 : (stripZeros m e).1.natAbs % 10 ≠ 0 :=
        intAbs_mod_ten _ (stripZeros_mod e m hp)
      exact digitChar_ne_zero (Nat.mod_lt _ (by omega)) h10
        (Option.some.inj hcontra)

/-- Witness for the amended claim C7: the nested object
`\x7b"a": \x7b"b": 1.5\x7d, "c": null\x7d` has collision-free dotted
keys, and its flat view holds the rendering of the leaf 1.5 at key
"a.b". -/
theorem claim_C7_witness :
    lookupA (flattenMap (JObj.consObj "a".toList
        (JObj.cons "b".toList (.num 15 1) .nil)
        (JObj.cons "c".toList .jnull .nil))) "a.b".toList =
      some (toString (JScalar.num 15 1)) ∧
    (∀ (m : Int) (e : Nat),
      'e' ∉ toString (JScalar.num m e) ∧ 'E' ∉ toString (JScalar.num m e) ∧
      ('.' ∈ toString (JScalar.num m e) →
        (toString (JScalar.num m e)).getLast? ≠ some '0')) ∧
    toString JScalar.jnull = [] ∧
    toString (JScalar.jbool true) = "true".toList ∧
    toString (JScalar.jbool false) = "false".toList :=
  claim_C7_amended
    (JObj.consObj "a".toList (JObj.cons "b".toList (.num 15 1) .nil)
      (JObj.cons "c".toList .jnull .nil))
    "a.b".toList (JScalar.num 15 1) (by decide) (by decide)

/-- C3: appending maxLogs + k entries (k > 0) to the empty manager
leaves exactly the maxLogs newest entries retrievable by
GetLastLogs(maxLogs) in insertion order, puts none of the k oldest ids
in any index bucket, and a single append never shrinks the retained
order by more than one entry. -/
theorem claim_C3 (cfg : Config) (k : Nat) (raws : List JObj)
    (hk : 0 < k) (hlen : raws.length = cfg.maxLogs + k) :
    GetLastLogs (addAll cfg NewLogManager raws) cfg.maxLogs = raws.drop k ∧
    (GetLastLogs (addAll cfg NewLogManager raws) cfg.maxLogs).length = cfg.maxLogs ∧
    (∀ id, 1 ≤ id → id ≤ k →
      idInIndex (addAll cfg NewLogManager raws).index id = false) ∧
    ∀ (st : LMState) (raw : JObj),
      st.logOrder.length ≤ (AddLogEntry cfg st raw).1.logOrder.length ∧
        (AddLogEntry cfg st raw).1.logOrder.length ≤ st.logOrder.length + 1 := by
  obtain ⟨hid, hord, hsto⟩ := addAll_exact cfg raws
  have hmin : min raws.length cfg.maxLogs = cfg.maxLogs := by omega
  rw [hmin] at hord hsto
  have hlow : raws.length - cfg.maxLogs + 1 = k + 1 := by omega
  rw [hlow] at hord hsto
  have hinv := LMInv_addAll cfg raws NewLogManager (LMInv_new cfg)
  have h1 : GetLastLogs (addAll cfg NewLogManager raws) cfg.maxLogs = raws.drop k := by
    have hcong : ∀ i ∈ List.range' (k + 1) cfg.maxLogs,
        lookupA (addAll cfg NewLogManager raws).logStore i = raws[i - 1]? := by
      intro i hi
      rw [List.mem_range'_1] at hi
      rw [hsto i]
      have hc : k + 1 ≤ i ∧ i ≤ raws.length := by omega
      rw [if_pos hc]
    unfold GetLastLogs
    rw [hord]
    simp only [List.length_range']
    have hnc : ¬cfg.maxLogs > cfg.maxLogs := by omega
    rw [if_neg hnc, List.drop_zero, List.filterMap_congr hcong]
    exact range'_filterMap_getElem raws cfg.maxLogs (k + 1) (by omega) (by omega)
  refine ⟨h1, ?_, ?_, ?_⟩
  · rw [h1, List.length_drop]
    omega
  · intro id hid1 hid2
    cases hcase : idInIndex (addAll cfg NewLogManager raws).index id with
    | false => rfl
    | true =>
      exfalso
      obtain ⟨p, v, hb⟩ := idInIndex_true_elim hinv.idxNodup hinv.bucketNodup hcase
      have hmem := (hinv.bucketIdsMem p v id hb).1
      rw [hord, List.mem_range'_1] at hmem
      omega
  · intro st raw
    exact AddLogEntry_order_len cfg st raw

/-- Witness for claim C3: three entries into a capacity-2 manager keep
exactly the last two in order and leave the evicted id 1 in no index
bucket. -/
theorem claim_C3_witness :
    GetLastLogs (addAll ⟨10, 2, 50⟩ NewLogManager
      [entryInfo, entryError, entryWarn]) 2 = [entryError, entryWarn] ∧
    (GetLastLogs (addAll ⟨10, 2, 50⟩ NewLogManager
      [entryInfo, entryError, entryWarn]) 2).length = 2 ∧
    idInIndex (addAll ⟨10, 2, 50⟩ NewLogManager
      [entryInfo, entryError, entryWarn]).index 1 = false := by
  have h := claim_C3 ⟨10, 2, 50⟩ 1 [entryInfo, entryError, entryWarn]
    (by decide) (by decide)
  exact ⟨h.1, h.2.1, h.2.2.1 1 (by decide) (by decide)⟩

end Jsonlv
